import Mathlib

/-!
# Verification of libpu8's UTF-8 console codec logic

This file gives a shallow embedding, in Lean 4, of the core logic of
`libpu8.cpp`: the lead-byte classifier `num_succeeding_bytes`, the
trailing-incomplete-sequence scanner
`U8ConsoleOstreamBufWin32::num_trailing_partial_bytes`, the output adapter's
`sync`, the input adapter's `underflow`, and the conversion functions
`u8widen` / `u8narrow`.  Bytes and UTF-16 code units are modelled as `Nat`,
byte strings as `List Nat`, exceptions as `Except String`.

The platform converter (`MultiByteToWideChar` / `WideCharToMultiByte`,
`CP_UTF8`) is not part of the repository; it is modelled from the spec as a
structural UTF-8 / UTF-16 codec (strict mode rejects invalid input, lenient
mode substitutes the replacement character U+FFFD).
-/

namespace Libpu8

/-- `U8ConsoleOstreamBufWin32::is_utf8_continuation`: `(c & 192) == 128`. -/
def is_utf8_continuation (c : Nat) : Bool := c &&& 192 == 128

/-- `U8ConsoleOstreamBufWin32::is_utf8_leading`: `(c & 192) == 192`. -/
def is_utf8_leading (c : Nat) : Bool := c &&& 192 == 192

/-- `num_succeeding_bytes` from `libpu8.cpp`: switch on `c >> 5`; the
`assert(false)` branches (continuation byte, and the unreachable default)
return the values the source returns there (`0` and `unsigned(-1)`). -/
def num_succeeding_bytes (c : Nat) : Nat :=
  match c >>> 5 with
  | 0 => 0
  | 1 => 0
  | 2 => 0
  | 3 => 0
  | 4 => 0
  | 5 => 0
  | 6 => 1
  | 7 => if c &&& 32 ≠ 0 then 3 else 2
  | _ => 4294967295

/-- The number of trailing continuation bytes of `s`: the value of `result`
computed by the backward-scanning `while` loop of
`num_trailing_partial_bytes` (`while (result < s.size() &&
is_utf8_continuation(s[s.size() - result - 1])) ++result;`). -/
def trailing_cont_count (s : List Nat) : Nat :=
  (s.reverse.takeWhile is_utf8_continuation).length

/-- The byte `s[s.size() - result - 1]` that `num_trailing_partial_bytes`
passes to `num_succeeding_bytes` at its call site. -/
def ntpb_call_byte (s : List Nat) : Nat :=
  s.getD (s.length - trailing_cont_count s - 1) 0

/-- `U8ConsoleOstreamBufWin32::num_trailing_partial_bytes` from
`libpu8.cpp`: 0 for the empty string; 1 if the last byte is a leading byte;
otherwise count trailing continuation bytes, and if a non-continuation byte
precedes the run, return 0 when its expected continuation count matches the
run length, else run length + 1. -/
def num_trailing_partial_bytes (s : List Nat) : Nat :=
  if s = [] then 0
  else if is_utf8_leading (s.getLastD 0) then 1
  else
    let result := trailing_cont_count s
    if result ≠ 0 ∧ result < s.length then
      if num_succeeding_bytes (ntpb_call_byte s) = result then 0
      else result + 1
    else result

/-! ## The platform converter, modelled from the spec

`u8widen`/`u8narrow` delegate conversion to the platform's canonical
UTF-8 ⇄ UTF-16 converter (`MultiByteToWideChar`/`WideCharToMultiByte`),
which is external to the repository.  We model it structurally. -/

/-- A Unicode scalar value: a code point below `0x110000` that is not a
UTF-16 surrogate. -/
def isScalar (c : Nat) : Bool := c < 1114112 && !(55296 ≤ c && c ≤ 57343)

/-- The UTF-8 encoding of one scalar value. -/
def enc8 (c : Nat) : List Nat :=
  if c < 128 then [c]
  else if c < 2048 then [192 + c / 64, 128 + c % 64]
  else if c < 65536 then [224 + c / 4096, 128 + c / 64 % 64, 128 + c % 64]
  else [240 + c / 262144, 128 + c / 4096 % 64, 128 + c / 64 % 64, 128 + c % 64]

/-- UTF-8 encoding of a list of scalar values. -/
def encodeUtf8 (cps : List Nat) : List Nat := (cps.map enc8).flatten

/-- The UTF-16 encoding of one scalar value. -/
def enc16 (c : Nat) : List Nat :=
  if c < 65536 then [c]
  else [55296 + (c - 65536) / 1024, 56320 + (c - 65536) % 1024]

/-- UTF-16 encoding of a list of scalar values. -/
def encodeUtf16 (cps : List Nat) : List Nat := (cps.map enc16).flatten

/-- `s` is a valid UTF-8 byte sequence: the encoding of some list of
scalar values. -/
def ValidUtf8 (s : List Nat) : Prop :=
  ∃ cps, (∀ c ∈ cps, isScalar c = true) ∧ s = encodeUtf8 cps

/-- One step of strict UTF-8 decoding: the first scalar value of the list
(rejecting truncated, overlong, surrogate and out-of-range sequences) and
the remaining bytes. -/
def utf8Step : List Nat → Option (Nat × List Nat)
  | [] => none
  | b :: rest =>
    if b < 128 then some (b, rest)
    else if b < 194 then none
    else if b < 224 then
      match rest with
      | b1 :: r =>
        if 128 ≤ b1 && b1 < 192 then some ((b - 192) * 64 + (b1 - 128), r) else none
      | [] => none
    else if b < 240 then
      match rest with
      | b1 :: b2 :: r =>
        if (128 ≤ b1 && b1 < 192) && (128 ≤ b2 && b2 < 192) then
          let c := (b - 224) * 4096 + (b1 - 128) * 64 + (b2 - 128)
          if 2048 ≤ c && !(55296 ≤ c && c ≤ 57343) then some (c, r) else none
        else none
      | _ => none
    else if b < 245 then
      match rest with
      | b1 :: b2 :: b3 :: r =>
        if (128 ≤ b1 && b1 < 192) && ((128 ≤ b2 && b2 < 192) && (128 ≤ b3 && b3 < 192)) then
          let c := (b - 240) * 262144 + (b1 - 128) * 4096 + (b2 - 128) * 64 + (b3 - 128)
          if 65536 ≤ c && c < 1114112 then some (c, r) else none
        else none
      | _ => none
    else none

/-- Iterate `utf8Step`; the fuel is sufficient whenever it is at least the
list length, since every step consumes at least one byte. -/
def utf8DecodeAux : Nat → List Nat → Option (List Nat)
  | _, [] => some []
  | 0, _ :: _ => none
  | fuel + 1, b :: rest =>
    match utf8Step (b :: rest) with
    | none => none
    | some (c, r) => (utf8DecodeAux fuel r).map (fun cs => c :: cs)

/-- Modelled from the spec: strict UTF-8 decoding as performed by
`MultiByteToWideChar(CP_UTF8, MB_ERR_INVALID_CHARS, ...)`, which is not
part of the repository.  Returns the decoded scalar values, or `none` on
any invalid, overlong, surrogate or out-of-range sequence. -/
def utf8Decode (l : List Nat) : Option (List Nat) := utf8DecodeAux l.length l

/-- One step of lenient UTF-8 decoding: given the first byte `b` and the
remaining bytes, return the decoded (or replacement) code point and the
bytes left over.  An invalid lead or continuation run consumes only `b`
and yields U+FFFD. -/
def utf8LenientStep (b : Nat) (rest : List Nat) : Nat × List Nat :=
  if b < 128 then (b, rest)
  else if b < 194 then (65533, rest)
  else if b < 224 then
    match rest with
    | b1 :: r =>
      if 128 ≤ b1 && b1 < 192 then ((b - 192) * 64 + (b1 - 128), r)
      else (65533, rest)
    | [] => (65533, [])
  else if b < 240 then
    match rest with
    | b1 :: b2 :: r =>
      if (128 ≤ b1 && b1 < 192) && (128 ≤ b2 && b2 < 192) then
        let c := (b - 224) * 4096 + (b1 - 128) * 64 + (b2 - 128)
        if 2048 ≤ c && !(55296 ≤ c && c ≤ 57343) then (c, r)
        else (65533, rest)
      else (65533, rest)
    | _ => (65533, rest)
  else if b < 245 then
    match rest with
    | b1 :: b2 :: b3 :: r =>
      if (128 ≤ b1 && b1 < 192) && ((128 ≤ b2 && b2 < 192) && (128 ≤ b3 && b3 < 192)) then
        let c := (b - 240) * 262144 + (b1 - 128) * 4096 + (b2 - 128) * 64 + (b3 - 128)
        if 65536 ≤ c && c < 1114112 then (c, r)
        else (65533, rest)
      else (65533, rest)
    | _ => (65533, rest)
  else (65533, rest)

/-- Iterate `utf8LenientStep`; `fuel` bounds the number of steps and is
always sufficient when it is at least the list length, since every step
consumes at least the first byte. -/
def utf8DecodeLenientAux : Nat → List Nat → List Nat
  | 0, _ => []
  | _, [] => []
  | fuel + 1, b :: rest =>
    let s := utf8LenientStep b rest
    s.1 :: utf8DecodeLenientAux fuel s.2

/-- Modelled from the spec: lenient UTF-8 decoding as performed by
`MultiByteToWideChar(CP_UTF8, 0, ...)` (not part of the repository):
invalid bytes are replaced by the replacement character U+FFFD instead of
failing. -/
def utf8DecodeLenient (l : List Nat) : List Nat :=
  utf8DecodeLenientAux l.length l

/-- One step of strict UTF-16 decoding: the first scalar value (rejecting
unpaired surrogates) and the remaining units. -/
def utf16Step : List Nat → Option (Nat × List Nat)
  | [] => none
  | u :: rest =>
    if u < 55296 || 57343 < u then some (u, rest)
    else if u < 56320 then
      match rest with
      | u2 :: r =>
        if 56320 ≤ u2 && u2 ≤ 57343 then
          some (65536 + (u - 55296) * 1024 + (u2 - 56320), r)
        else none
      | [] => none
    else none

/-- Iterate `utf16Step` with a fuel bound, sufficient whenever the fuel is
at least the list length. -/
def utf16DecodeAux : Nat → List Nat → Option (List Nat)
  | _, [] => some []
  | 0, _ :: _ => none
  | fuel + 1, u :: rest =>
    match utf16Step (u :: rest) with
    | none => none
    | some (c, r) => (utf16DecodeAux fuel r).map (fun cs => c :: cs)

/-- Modelled from the spec: strict UTF-16 decoding as performed by
`WideCharToMultiByte(CP_UTF8, WC_ERR_INVALID_CHARS, ...)` (not part of the
repository): `none` on any unpaired surrogate. -/
def utf16Decode (l : List Nat) : Option (List Nat) := utf16DecodeAux l.length l

/-- One step of lenient UTF-16 decoding: decoded (or replacement) code
point plus the units left over. -/
def utf16LenientStep (u : Nat) (rest : List Nat) : Nat × List Nat :=
  if u < 55296 || 57343 < u then (u, rest)
  else if u < 56320 then
    match rest with
    | u2 :: r =>
      if 56320 ≤ u2 && u2 ≤ 57343 then
        (65536 + (u - 55296) * 1024 + (u2 - 56320), r)
      else (65533, rest)
    | [] => (65533, [])
  else (65533, rest)

/-- Iterate `utf16LenientStep` with a fuel bound, sufficient whenever the
fuel is at least the list length. -/
def utf16DecodeLenientAux : Nat → List Nat → List Nat
  | 0, _ => []
  | _, [] => []
  | fuel + 1, u :: rest =>
    let s := utf16LenientStep u rest
    s.1 :: utf16DecodeLenientAux fuel s.2

/-- Modelled from the spec: lenient UTF-16 decoding as performed by
`WideCharToMultiByte(CP_UTF8, 0, ...)` (not part of the repository):
an unpaired surrogate is replaced by U+FFFD. -/
def utf16DecodeLenient (l : List Nat) : List Nat :=
  utf16DecodeLenientAux l.length l

/-- `INT_MAX`, the length bound checked by `u8widen` and `u8narrow`. -/
def INT_MAX : Nat := 2147483647

/-- `u8widen(s, len, throw_on_inv_chars)` from `libpu8.cpp`: empty input
short-circuits; inputs of length `≥ INT_MAX` skip conversion and throw; the
conversion itself is the (spec-modelled) platform converter in strict or
lenient mode, a failed strict conversion throws. -/
def u8widen (s : List Nat) (throw_on_inv_chars : Bool) : Except String (List Nat) :=
  if s.length = 0 then .ok []
  else if s.length < INT_MAX then
    match (if throw_on_inv_chars then utf8Decode s else some (utf8DecodeLenient s)) with
    | some cps => .ok (encodeUtf16 cps)
    | none => .error "utf8 to wide-string conversion failed."
  else .error "utf8 to wide-string conversion failed."

/-- `u8narrow(s, len, throw_on_inv_chars)` from `libpu8.cpp`, the inverse
direction of `u8widen`. -/
def u8narrow (s : List Nat) (throw_on_inv_chars : Bool) : Except String (List Nat) :=
  if s.length = 0 then .ok []
  else if s.length < INT_MAX then
    match (if throw_on_inv_chars then utf16Decode s else some (utf16DecodeLenient s)) with
    | some cps => .ok (encodeUtf8 cps)
    | none => .error "wide-string to utf8 conversion failed."
  else .error "wide-string to utf8 conversion failed."

/-! ## The output adapter -/

/-- `U8ConsoleOstreamBufWin32::sync` from `libpu8.cpp`.  State is the
pending buffer `m_unwritten_partial_bytes`; `chunk` is the stringbuf
content `str()` accumulated since the last sync.  Returns the new pending
buffer, the list of wide strings passed to `WriteConsoleW` (at most one),
and the `int` return value.  `writeOutcome` is the result of the
`WriteConsoleW` call (success flag and `writtenSize`), which the source
ignores.  A `u8widen` failure propagates as an exception. -/
def sync (writeOutcome : Bool × Nat) (pending chunk : List Nat) :
    Except String (List Nat × List (List Nat) × Int) :=
  let buffer := pending ++ chunk
  let k := num_trailing_partial_bytes buffer
  let newPending := buffer.drop (buffer.length - k)
  let kept := buffer.take (buffer.length - k)
  if kept.isEmpty then .ok (newPending, [], 0)
  else
    match u8widen kept true with
    | .ok w => .ok (newPending, [w], 0)
    | .error e => .error e

/-- Feeding a list of chunks through `sync` in order, accumulating the
wide strings written to the terminal. -/
def syncRun (pending : List Nat) : List (List Nat) → Except String (List Nat × List (List Nat))
  | [] => .ok (pending, [])
  | y :: ys =>
    match sync (true, 0) pending y with
    | .ok (p1, ws, _) =>
      match syncRun p1 ys with
      | .ok (pf, wss) => .ok (pf, ws ++ wss)
      | .error e => .error e
    | .error e => .error e

/-! ## The input adapter -/

/-- `IS_HIGH_SURROGATE`. -/
def IS_HIGH_SURROGATE (u : Nat) : Bool := 55296 ≤ u && u ≤ 56319

/-- The batch of UTF-16 units assembled by
`U8ConsoleIstreamBufWin32::underflow`: the units of the first
`ReadConsoleW` and, when that batch is non-empty and ends on a high
surrogate, the unit of one additional single-unit `ReadConsoleW`
(appended only when that extra read succeeds with `extraReadSize == 1`). -/
def underflowBatch (firstUnits : List Nat) (extraRead : Option (List Nat)) : List Nat :=
  if firstUnits ≠ [] ∧ IS_HIGH_SURROGATE (firstUnits.getLastD 0) then
    match extraRead with
    | some [u] => firstUnits ++ [u]
    | _ => firstUnits
  else firstUnits

/-- `U8ConsoleIstreamBufWin32::underflow` from `libpu8.cpp`, for the case
where the read window is exhausted.  `firstRead` is the result of the
first `ReadConsoleW` (`none` = the call failed), `extraRead` the result of
the optional completion read.  `.ok none` models returning
`traits_type::eof()`; `.ok (some b)` models serving the freshly converted
buffer `b`.  The source stores a NUL terminator (`wideBuffer[readSize] = 0`)
and calls the null-terminated overload `u8narrow(wideBuffer)`,
whose length is measured with `wcslen`: conversion therefore covers only
the units of the batch that precede its first `0` unit, with the default
`throw_on_inv_chars` argument, which is `u8_default_throw = true`; a
conversion failure propagates as an exception. -/
def underflow (firstRead : Option (List Nat)) (extraRead : Option (List Nat)) :
    Except String (Option (List Nat)) :=
  match firstRead with
  | none => .ok none
  | some units =>
    match u8narrow ((underflowBatch units extraRead).takeWhile (fun u => u != 0)) true with
    | .ok bytes => .ok (if bytes.isEmpty then none else some bytes)
    | .error e => .error e

/-! ## Derived notions used in the statements and proofs -/

/-- The scalar values whose (re-)encoding `num_trailing_partial_bytes`
withholds from a buffer ending exactly on a sequence boundary: the final
code point when (and only when) its UTF-8 encoding is 3 bytes long — the
classifier reports 3 expected continuation bytes for a 3-byte lead, so the
scanner treats even a complete 3-byte sequence as incomplete. -/
def tail3 (cps : List Nat) : List Nat :=
  match cps.getLast? with
  | none => []
  | some d => if (enc8 d).length = 3 then [d] else []

/-- The complement of `tail3`: the code points the adapter does write. -/
def front3 (cps : List Nat) : List Nat :=
  match cps.getLast? with
  | none => []
  | some d => if (enc8 d).length = 3 then cps.dropLast else cps

/-- Shapes the pending buffer `m_unwritten_partial_bytes` can take when
the input fed so far is a prefix of a valid UTF-8 string: empty, a proper
prefix of the encoding of some scalar, or the complete encoding of a
scalar with a 3-byte encoding. -/
def PendShape (pend : List Nat) : Prop :=
  pend = [] ∨
  (∃ c k, isScalar c = true ∧ 0 < k ∧ k < (enc8 c).length ∧ pend = (enc8 c).take k) ∨
  (∃ d, isScalar d = true ∧ (enc8 d).length = 3 ∧ pend = enc8 d)

/-- `l` is a strict prefix of the UTF-8 encoding of some scalar value
whose encoding is multi-byte. -/
def StrictPrefixOfMultibyteSeq (l : List Nat) : Prop :=
  ∃ c, isScalar c = true ∧ 2 ≤ (enc8 c).length ∧
    l.length < (enc8 c).length ∧ l = (enc8 c).take l.length

/-! ## Sanity checks -/

example : num_succeeding_bytes 97 = 0 := by decide
example : num_succeeding_bytes 195 = 1 := by decide
example : num_succeeding_bytes 224 = 3 := by decide
example : num_succeeding_bytes 240 = 3 := by decide
example : num_trailing_partial_bytes [195, 169] = 0 := by decide
example : num_trailing_partial_bytes [224, 160, 128] = 3 := by decide
example : num_trailing_partial_bytes [240, 144, 128, 128] = 0 := by decide
example : num_trailing_partial_bytes [97, 195] = 1 := by decide
example : utf8Decode [195, 169] = some [233] := by decide
example : utf8Decode [224, 160, 128] = some [2048] := by decide
example : utf8Decode [237, 160, 128] = none := by decide
example : utf16Decode [55349, 56658] = some [120146] := by decide
example : u8widen [195, 169] true = .ok [233] := rfl
example : u8narrow [233] true = .ok [195, 169] := rfl
example : u8narrow [55296] true = .error "wide-string to utf8 conversion failed." := rfl
example : u8narrow [55296] false = .ok [239, 191, 189] := rfl
example : syncRun [] [[195], [169]] = .ok ([], [[233]]) := rfl
example : syncRun [] [[195, 169]] = .ok ([], [[233]]) := rfl
example : syncRun [] [[224, 160, 128]] = .ok ([224, 160, 128], []) := rfl
example : syncRun [] [[224, 160, 128], [97]] = .ok ([], [[2048, 97]]) := rfl

/-! ## Byte classification facts -/

theorem cont_of_add128 : ∀ m < 64, is_utf8_continuation (128 + m) = true := by decide

theorem not_cont_of_lt128 : ∀ c < 128, is_utf8_continuation c = false := by decide

theorem not_cont_of_add192 : ∀ m < 64, is_utf8_continuation (192 + m) = false := by decide

theorem leading_of_add192 : ∀ m < 64, is_utf8_leading (192 + m) = true := by decide

theorem not_leading_of_add128 : ∀ m < 64, is_utf8_leading (128 + m) = false := by decide

theorem not_leading_of_lt128 : ∀ c < 128, is_utf8_leading c = false := by decide

theorem nsb_two_byte_lead : ∀ m < 32, 2 ≤ m → num_succeeding_bytes (192 + m) = 1 := by decide

theorem nsb_three_byte_lead : ∀ m < 16, num_succeeding_bytes (224 + m) = 3 := by decide

theorem nsb_four_byte_lead : ∀ m < 8, num_succeeding_bytes (240 + m) = 3 := by decide

/-! ## List helpers -/

theorem takeWhile_append_all {α : Type} (p : α → Bool) (l1 l2 : List α)
    (h : ∀ a ∈ l1, p a = true) :
    (l1 ++ l2).takeWhile p = l1 ++ l2.takeWhile p := by
  induction l1 with
  | nil => simp
  | cons a l ih =>
    have ha : p a = true := h a (by simp)
    simp only [List.cons_append, List.takeWhile_cons_of_pos ha, ih fun b hb => h b (by simp [hb])]

theorem takeWhile_stop {α : Type} (p : α → Bool) (d : α) :
    ∀ l : List α, (l.takeWhile p).length < l.length →
      p (l.getD (l.takeWhile p).length d) = false := by
  intro l
  induction l with
  | nil => simp
  | cons a l ih =>
    intro h
    by_cases hp : p a = true
    · simp only [List.takeWhile_cons_of_pos hp, List.length_cons] at h ⊢
      simpa using ih (by omega)
    · simp only [List.takeWhile_cons_of_neg hp] at h ⊢
      simpa using hp

/-- The backward continuation scan of `num_trailing_partial_bytes` on a
buffer whose trailing run is `conts` preceded by a non-continuation `x`. -/
theorem tcc_eq (s0 : List Nat) (x : Nat) (conts : List Nat)
    (hx : is_utf8_continuation x = false)
    (hc : ∀ b ∈ conts, is_utf8_continuation b = true) :
    trailing_cont_count (s0 ++ x :: conts) = conts.length := by
  unfold trailing_cont_count
  rw [List.reverse_append, List.reverse_cons]
  rw [List.append_assoc]
  rw [takeWhile_append_all _ _ _ (fun a ha => hc a (by simpa using ha))]
  have hx' : ¬ is_utf8_continuation x = true := by simp [hx]
  simp [List.takeWhile_cons_of_neg hx']

/-- The byte handed to `num_succeeding_bytes` at the call site inside
`num_trailing_partial_bytes` is the byte just before the trailing
continuation run. -/
theorem ntpb_call_byte_eq (s0 : List Nat) (x : Nat) (conts : List Nat)
    (hx : is_utf8_continuation x = false)
    (hc : ∀ b ∈ conts, is_utf8_continuation b = true) :
    ntpb_call_byte (s0 ++ x :: conts) = x := by
  unfold ntpb_call_byte
  rw [tcc_eq s0 x conts hx hc]
  have hlen : (s0 ++ x :: conts).length = s0.length + 1 + conts.length := by
    simp; omega
  have hidx : (s0 ++ x :: conts).length - conts.length - 1 = s0.length := by omega
  rw [hidx, List.getD_append_right _ _ _ _ (Nat.le_refl _)]
  simp

theorem getD_reverse (l : List Nat) (i : Nat) (h : i < l.length) (d : Nat) :
    l.reverse.getD i d = l.getD (l.length - i - 1) d := by
  have hi : i < l.reverse.length := by simpa using h
  have hb : l.length - i - 1 < l.length := by omega
  rw [List.getD_eq_getElem _ _ hi, List.getD_eq_getElem _ _ hb]
  have := List.getElem_reverse hi
  rw [this]
  congr 1
  omega

/-! ## Encoder shape facts -/

theorem isScalar_lt (c : Nat) (h : isScalar c = true) : c < 1114112 := by
  simp [isScalar] at h
  omega

theorem isScalar_not_surrogate (c : Nat) (h : isScalar c = true) :
    c < 55296 ∨ 57343 < c := by
  simp [isScalar] at h
  omega

theorem isScalar_of (c : Nat) (h1 : c < 1114112) (h2 : c < 55296 ∨ 57343 < c) :
    isScalar c = true := by
  simp [isScalar]
  omega

theorem enc8_ascii (c : Nat) (h : c < 128) : enc8 c = [c] := by
  simp [enc8, h]

theorem enc8_two (c : Nat) (h1 : 128 ≤ c) (h2 : c < 2048) :
    enc8 c = [192 + c / 64, 128 + c % 64] := by
  simp only [enc8]
  rw [if_neg (by omega), if_pos h2]

theorem enc8_three (c : Nat) (h1 : 2048 ≤ c) (h2 : c < 65536) :
    enc8 c = [224 + c / 4096, 128 + c / 64 % 64, 128 + c % 64] := by
  simp only [enc8]
  rw [if_neg (by omega), if_neg (by omega), if_pos h2]

theorem enc8_four (c : Nat) (h1 : 65536 ≤ c) :
    enc8 c = [240 + c / 262144, 128 + c / 4096 % 64, 128 + c / 64 % 64, 128 + c % 64] := by
  simp only [enc8]
  rw [if_neg (by omega), if_neg (by omega), if_neg (by omega)]

theorem enc8_ne_nil (c : Nat) : enc8 c ≠ [] := by
  unfold enc8
  repeat' split
  all_goals simp

theorem enc8_length_pos (c : Nat) : 0 < (enc8 c).length := by
  cases h : enc8 c with
  | nil => exact absurd h (enc8_ne_nil c)
  | cons a l => simp

theorem enc8_length_le (c : Nat) : (enc8 c).length ≤ 4 := by
  unfold enc8
  repeat' split
  all_goals simp

theorem encodeUtf8_nil : encodeUtf8 [] = [] := rfl

theorem encodeUtf8_cons (c : Nat) (cps : List Nat) :
    encodeUtf8 (c :: cps) = enc8 c ++ encodeUtf8 cps := by
  simp [encodeUtf8]

theorem encodeUtf8_append (a b : List Nat) :
    encodeUtf8 (a ++ b) = encodeUtf8 a ++ encodeUtf8 b := by
  simp [encodeUtf8]

theorem encodeUtf8_eq_nil_iff (cps : List Nat) : encodeUtf8 cps = [] ↔ cps = [] := by
  cases cps with
  | nil => simp [encodeUtf8]
  | cons c l =>
    rw [encodeUtf8_cons]
    simp [enc8_ne_nil]

theorem enc16_ne_nil (c : Nat) : enc16 c ≠ [] := by
  unfold enc16
  split
  all_goals simp

theorem encodeUtf16_nil : encodeUtf16 [] = [] := rfl

theorem encodeUtf16_cons (c : Nat) (cps : List Nat) :
    encodeUtf16 (c :: cps) = enc16 c ++ encodeUtf16 cps := by
  simp [encodeUtf16]

theorem encodeUtf16_append (a b : List Nat) :
    encodeUtf16 (a ++ b) = encodeUtf16 a ++ encodeUtf16 b := by
  simp [encodeUtf16]

theorem encodeUtf8_eq_nil_of_eq (cps : List Nat) (h : encodeUtf8 cps = []) : cps = [] :=
  (encodeUtf8_eq_nil_iff cps).mp h

/-! ## Decoding inverts encoding -/

theorem utf8Step_some_length (l : List Nat) (c : Nat) (r : List Nat)
    (h : utf8Step l = some (c, r)) : r.length < l.length := by
  unfold utf8Step at h
  repeat' split at h
  all_goals simp_all
  all_goals omega

theorem utf8Step_enc8 (c : Nat) (rest : List Nat) (h : isScalar c = true) :
    utf8Step (enc8 c ++ rest) = some (c, rest) := by
  have hlt := isScalar_lt c h
  have hsur := isScalar_not_surrogate c h
  by_cases h1 : c < 128
  · rw [enc8_ascii c h1, List.cons_append, List.nil_append, utf8Step.eq_def]
    dsimp only
    rw [if_pos h1]
  · by_cases h2 : c < 2048
    · rw [enc8_two c (by omega) h2]
      simp only [List.cons_append, List.nil_append]
      rw [utf8Step]
      dsimp only
      have e1 : (decide (128 ≤ 128 + c % 64) && decide (128 + c % 64 < 192)) = true := by
        simp only [Bool.and_eq_true, decide_eq_true_eq]
        exact ⟨by omega, by omega⟩
      rw [if_neg (by omega), if_neg (by omega), if_pos (by omega : 192 + c / 64 < 224),
        if_pos e1]
      have ec : (192 + c / 64 - 192) * 64 + (128 + c % 64 - 128) = c := by omega
      rw [ec]
    · by_cases h3 : c < 65536
      · rw [enc8_three c (by omega) h3]
        simp only [List.cons_append, List.nil_append]
        rw [utf8Step]
        dsimp only
        have e1 : (decide (128 ≤ 128 + c / 64 % 64) && decide (128 + c / 64 % 64 < 192) &&
            (decide (128 ≤ 128 + c % 64) && decide (128 + c % 64 < 192))) = true := by
          simp only [Bool.and_eq_true, decide_eq_true_eq]
          exact ⟨⟨by omega, by omega⟩, by omega, by omega⟩
        have e2 : (decide (2048 ≤ (224 + c / 4096 - 224) * 4096 +
            (128 + c / 64 % 64 - 128) * 64 + (128 + c % 64 - 128)) &&
            !(decide (55296 ≤ (224 + c / 4096 - 224) * 4096 +
              (128 + c / 64 % 64 - 128) * 64 + (128 + c % 64 - 128)) &&
              decide ((224 + c / 4096 - 224) * 4096 +
              (128 + c / 64 % 64 - 128) * 64 + (128 + c % 64 - 128) ≤ 57343))) = true := by
          simp only [Bool.and_eq_true, Bool.not_eq_true', Bool.and_eq_false_iff,
            decide_eq_true_eq, decide_eq_false_iff_not]
          constructor
          · omega
          · omega
        rw [if_neg (by omega), if_neg (by omega), if_neg (by omega),
          if_pos (by omega : 224 + c / 4096 < 240), if_pos e1, if_pos e2]
        have ec : (224 + c / 4096 - 224) * 4096 + (128 + c / 64 % 64 - 128) * 64 +
            (128 + c % 64 - 128) = c := by omega
        rw [ec]
      · rw [enc8_four c (by omega)]
        simp only [List.cons_append, List.nil_append]
        rw [utf8Step]
        dsimp only
        have hd : c / 262144 ≤ 4 := by omega
        have e1 : (decide (128 ≤ 128 + c / 4096 % 64) && decide (128 + c / 4096 % 64 < 192) &&
            (decide (128 ≤ 128 + c / 64 % 64) && decide (128 + c / 64 % 64 < 192) &&
             (decide (128 ≤ 128 + c % 64) && decide (128 + c % 64 < 192)))) = true := by
          simp only [Bool.and_eq_true, decide_eq_true_eq]
          exact ⟨⟨by omega, by omega⟩, ⟨by omega, by omega⟩, by omega, by omega⟩
        have e2 : (decide (65536 ≤ (240 + c / 262144 - 240) * 262144 +
            (128 + c / 4096 % 64 - 128) * 4096 + (128 + c / 64 % 64 - 128) * 64 +
            (128 + c % 64 - 128)) &&
            decide ((240 + c / 262144 - 240) * 262144 +
            (128 + c / 4096 % 64 - 128) * 4096 + (128 + c / 64 % 64 - 128) * 64 +
            (128 + c % 64 - 128) < 1114112)) = true := by
          simp only [Bool.and_eq_true, decide_eq_true_eq]
          exact ⟨by omega, by omega⟩
        rw [if_neg (by omega), if_neg (by omega), if_neg (by omega), if_neg (by omega),
          if_pos (by omega : 240 + c / 262144 < 245), if_pos e1, if_pos e2]
        have ec : (240 + c / 262144 - 240) * 262144 + (128 + c / 4096 % 64 - 128) * 4096 +
            (128 + c / 64 % 64 - 128) * 64 + (128 + c % 64 - 128) = c := by omega
        rw [ec]

theorem utf8DecodeAux_mono (f1 : Nat) :
    ∀ (l : List Nat) (f2 : Nat), l.length ≤ f1 → l.length ≤ f2 →
      utf8DecodeAux f1 l = utf8DecodeAux f2 l := by
  induction f1 with
  | zero =>
    intro l f2 h1 _
    have hl : l = [] := List.eq_nil_of_length_eq_zero (Nat.le_zero.mp h1)
    subst hl
    cases f2 <;> rfl
  | succ g ih =>
    intro l f2 h1 h2
    cases l with
    | nil => cases f2 <;> rfl
    | cons b rest =>
      cases f2 with
      | zero => simp at h2
      | succ g2 =>
        simp only [utf8DecodeAux]
        cases hs : utf8Step (b :: rest) with
        | none => rfl
        | some cr =>
          obtain ⟨c, r⟩ := cr
          dsimp only
          have hlen := utf8Step_some_length _ _ _ hs
          simp only [List.length_cons] at h1 h2 hlen
          rw [ih r g2 (by omega) (by omega)]

theorem utf8DecodeAux_encode (cps : List Nat) :
    ∀ (rest : List Nat) (fuel : Nat), (∀ c ∈ cps, isScalar c = true) →
      (encodeUtf8 cps ++ rest).length ≤ fuel →
      utf8DecodeAux fuel (encodeUtf8 cps ++ rest) =
        (utf8DecodeAux rest.length rest).map (fun cs => cps ++ cs) := by
  induction cps with
  | nil =>
    intro rest fuel _ hf
    rw [encodeUtf8_nil, List.nil_append] at hf ⊢
    rw [utf8DecodeAux_mono fuel rest rest.length hf (Nat.le_refl _)]
    cases utf8DecodeAux rest.length rest <;> simp
  | cons c cs ih =>
    intro rest fuel h hf
    rw [encodeUtf8_cons, List.append_assoc] at hf ⊢
    have hstep := utf8Step_enc8 c (encodeUtf8 cs ++ rest) (h c (by simp))
    obtain ⟨x, xs, hxs⟩ : ∃ x xs, enc8 c = x :: xs := by
      cases hc : enc8 c with
      | nil => exact absurd hc (enc8_ne_nil c)
      | cons x xs => exact ⟨x, xs, rfl⟩
    have hlen1 : 0 < (enc8 c).length := enc8_length_pos c
    cases fuel with
    | zero =>
      exfalso
      simp only [List.length_append] at hf
      omega
    | succ g =>
      rw [hxs, List.cons_append, utf8DecodeAux]
      rw [← List.cons_append, ← hxs, hstep]
      dsimp only
      have hg : (encodeUtf8 cs ++ rest).length ≤ g := by
        rw [hxs] at hf
        simp only [List.length_append, List.length_cons] at hf ⊢
        omega
      rw [ih rest g (fun y hy => h y (by simp [hy])) hg]
      cases utf8DecodeAux rest.length rest <;> simp

theorem utf8Decode_encode_append (cps rest : List Nat)
    (h : ∀ c ∈ cps, isScalar c = true) :
    utf8Decode (encodeUtf8 cps ++ rest) = (utf8Decode rest).map (fun cs => cps ++ cs) := by
  unfold utf8Decode
  exact utf8DecodeAux_encode cps rest _ h (Nat.le_refl _)

theorem utf8Decode_nil : utf8Decode [] = some [] := rfl

theorem utf8Decode_encode (cps : List Nat) (h : ∀ c ∈ cps, isScalar c = true) :
    utf8Decode (encodeUtf8 cps) = some cps := by
  have := utf8Decode_encode_append cps [] h
  simpa [utf8Decode_nil] using this

theorem encodeUtf8_inj (a b : List Nat) (ha : ∀ c ∈ a, isScalar c = true)
    (hb : ∀ c ∈ b, isScalar c = true) (h : encodeUtf8 a = encodeUtf8 b) : a = b := by
  have h1 := utf8Decode_encode a ha
  rw [h, utf8Decode_encode b hb] at h1
  exact (Option.some.injEq _ _ ▸ h1).symm

theorem utf16Step_some_length (l : List Nat) (c : Nat) (r : List Nat)
    (h : utf16Step l = some (c, r)) : r.length < l.length := by
  unfold utf16Step at h
  repeat' split at h
  all_goals simp_all
  all_goals omega

theorem utf16Step_enc16 (c : Nat) (rest : List Nat) (h : isScalar c = true) :
    utf16Step (enc16 c ++ rest) = some (c, rest) := by
  have hlt := isScalar_lt c h
  have hsur := isScalar_not_surrogate c h
  by_cases h1 : c < 65536
  · have hc : enc16 c = [c] := by simp [enc16, h1]
    rw [hc, List.cons_append, List.nil_append, utf16Step.eq_def]
    dsimp only
    rw [if_pos (by simp only [Bool.or_eq_true, decide_eq_true_eq]; omega)]
  · have hc : enc16 c = [55296 + (c - 65536) / 1024, 56320 + (c - 65536) % 1024] := by
      simp [enc16, h1]
    rw [hc]
    simp only [List.cons_append, List.nil_append]
    rw [utf16Step]
    have hq : (c - 65536) / 1024 < 1024 := by omega
    rw [if_neg (by simp only [Bool.or_eq_true, decide_eq_true_eq]; push_neg
                   exact ⟨by omega, by omega⟩)]
    rw [if_pos (by omega : 55296 + (c - 65536) / 1024 < 56320)]
    rw [if_pos (by simp only [Bool.and_eq_true, decide_eq_true_eq]
                   exact ⟨by omega, by omega⟩)]
    have ec : 65536 + (55296 + (c - 65536) / 1024 - 55296) * 1024 +
        (56320 + (c - 65536) % 1024 - 56320) = c := by omega
    rw [ec]

theorem utf16DecodeAux_mono (f1 : Nat) :
    ∀ (l : List Nat) (f2 : Nat), l.length ≤ f1 → l.length ≤ f2 →
      utf16DecodeAux f1 l = utf16DecodeAux f2 l := by
  induction f1 with
  | zero =>
    intro l f2 h1 _
    have hl : l = [] := List.eq_nil_of_length_eq_zero (Nat.le_zero.mp h1)
    subst hl
    cases f2 <;> rfl
  | succ g ih =>
    intro l f2 h1 h2
    cases l with
    | nil => cases f2 <;> rfl
    | cons b rest =>
      cases f2 with
      | zero => simp at h2
      | succ g2 =>
        simp only [utf16DecodeAux]
        cases hs : utf16Step (b :: rest) with
        | none => rfl
        | some cr =>
          obtain ⟨c, r⟩ := cr
          dsimp only
          have hlen := utf16Step_some_length _ _ _ hs
          simp only [List.length_cons] at h1 h2 hlen
          rw [ih r g2 (by omega) (by omega)]

theorem utf16DecodeAux_encode (cps : List Nat) :
    ∀ (rest : List Nat) (fuel : Nat), (∀ c ∈ cps, isScalar c = true) →
      (encodeUtf16 cps ++ rest).length ≤ fuel →
      utf16DecodeAux fuel (encodeUtf16 cps ++ rest) =
        (utf16DecodeAux rest.length rest).map (fun cs => cps ++ cs) := by
  induction cps with
  | nil =>
    intro rest fuel _ hf
    rw [encodeUtf16_nil, List.nil_append] at hf ⊢
    rw [utf16DecodeAux_mono fuel rest rest.length hf (Nat.le_refl _)]
    cases utf16DecodeAux rest.length rest <;> simp
  | cons c cs ih =>
    intro rest fuel h hf
    rw [encodeUtf16_cons, List.append_assoc] at hf ⊢
    have hstep := utf16Step_enc16 c (encodeUtf16 cs ++ rest) (h c (by simp))
    obtain ⟨x, xs, hxs⟩ : ∃ x xs, enc16 c = x :: xs := by
      cases hc : enc16 c with
      | nil => exact absurd hc (enc16_ne_nil c)
      | cons x xs => exact ⟨x, xs, rfl⟩
    have hlen1 : 0 < (enc16 c).length := by
      rw [hxs]; simp
    cases fuel with
    | zero =>
      exfalso
      simp only [List.length_append] at hf
      omega
    | succ g =>
      rw [hxs, List.cons_append, utf16DecodeAux]
      rw [← List.cons_append, ← hxs, hstep]
      dsimp only
      have hg : (encodeUtf16 cs ++ rest).length ≤ g := by
        rw [hxs] at hf
        simp only [List.length_append, List.length_cons] at hf ⊢
        omega
      rw [ih rest g (fun y hy => h y (by simp [hy])) hg]
      cases utf16DecodeAux rest.length rest <;> simp

theorem utf16Decode_encode_append (cps rest : List Nat)
    (h : ∀ c ∈ cps, isScalar c = true) :
    utf16Decode (encodeUtf16 cps ++ rest) = (utf16Decode rest).map (fun cs => cps ++ cs) := by
  unfold utf16Decode
  exact utf16DecodeAux_encode cps rest _ h (Nat.le_refl _)

theorem utf16Decode_nil : utf16Decode [] = some [] := rfl

theorem utf16Decode_encode (cps : List Nat) (h : ∀ c ∈ cps, isScalar c = true) :
    utf16Decode (encodeUtf16 cps) = some cps := by
  have := utf16Decode_encode_append cps [] h
  simpa [utf16Decode_nil] using this

/-! ## Evaluating the converters on encodings -/

theorem length_eq_zero_iff_nil (l : List Nat) : l.length = 0 ↔ l = [] :=
  List.length_eq_zero

theorem u8widen_encode (cps : List Nat) (h : ∀ c ∈ cps, isScalar c = true)
    (hlen : (encodeUtf8 cps).length < INT_MAX) :
    u8widen (encodeUtf8 cps) true = .ok (encodeUtf16 cps) := by
  by_cases hnil : cps = []
  · subst hnil; rfl
  · have hne : encodeUtf8 cps ≠ [] := fun hc => hnil (encodeUtf8_eq_nil_of_eq cps hc)
    unfold u8widen
    rw [if_neg (fun hc => hne ((length_eq_zero_iff_nil _).mp hc)), if_pos hlen]
    rw [utf8Decode_encode cps h]
    simp

theorem u8narrow_encode16 (cps : List Nat) (h : ∀ c ∈ cps, isScalar c = true)
    (hlen : (encodeUtf16 cps).length < INT_MAX) :
    u8narrow (encodeUtf16 cps) true = .ok (encodeUtf8 cps) := by
  by_cases hnil : cps = []
  · subst hnil; rfl
  · have hne : encodeUtf16 cps ≠ [] := by
      cases cps with
      | nil => exact absurd rfl hnil
      | cons c l =>
        rw [encodeUtf16_cons]
        intro hc
        exact enc16_ne_nil c (List.append_eq_nil.mp hc).1
    unfold u8narrow
    rw [if_neg (fun hc => hne ((length_eq_zero_iff_nil _).mp hc)), if_pos hlen]
    rw [utf16Decode_encode cps h]
    simp

theorem enc16_length_le_enc8 (c : Nat) : (enc16 c).length ≤ (enc8 c).length := by
  by_cases h1 : c < 65536
  · have : enc16 c = [c] := by simp [enc16, h1]
    rw [this]
    simpa using enc8_length_pos c
  · have h16 : enc16 c = [55296 + (c - 65536) / 1024, 56320 + (c - 65536) % 1024] := by
      simp [enc16, h1]
    rw [h16, enc8_four c (by omega)]
    simp

theorem encodeUtf16_length_le (cps : List Nat) :
    (encodeUtf16 cps).length ≤ (encodeUtf8 cps).length := by
  induction cps with
  | nil => simp [encodeUtf16_nil, encodeUtf8_nil]
  | cons c l ih =>
    rw [encodeUtf16_cons, encodeUtf8_cons]
    simp only [List.length_append]
    exact Nat.add_le_add (enc16_length_le_enc8 c) ih

/-- Lenient `u8widen` never fails below the `INT_MAX` length bound. -/
theorem u8widen_lenient_ok (s : List Nat) (hlen : s.length < INT_MAX) :
    ∃ w, u8widen s false = .ok w := by
  unfold u8widen
  by_cases h0 : s.length = 0
  · rw [if_pos h0]; exact ⟨[], rfl⟩
  · rw [if_neg h0, if_pos hlen]
    exact ⟨encodeUtf16 (utf8DecodeLenient s), rfl⟩

/-- Lenient `u8narrow` never fails below the `INT_MAX` length bound. -/
theorem u8narrow_lenient_ok (s : List Nat) (hlen : s.length < INT_MAX) :
    ∃ t, u8narrow s false = .ok t := by
  unfold u8narrow
  by_cases h0 : s.length = 0
  · rw [if_pos h0]; exact ⟨[], rfl⟩
  · rw [if_neg h0, if_pos hlen]
    exact ⟨encodeUtf8 (utf16DecodeLenient s), rfl⟩

theorem encodeUtf8_replicate97 (n : Nat) :
    encodeUtf8 (List.replicate n 97) = List.replicate n 97 := by
  induction n with
  | zero => rfl
  | succ n ih =>
    rw [List.replicate_succ, encodeUtf8_cons, ih, enc8_ascii 97 (by omega)]
    rfl

/-- `u8widen` throws on an input of length `INT_MAX` even in lenient
mode, because the `len < size_t(INT_MAX)` guard falls through to the
`throw` for both modes. -/
theorem u8widen_replicate_INT_MAX (b : Bool) :
    u8widen (List.replicate 2147483647 97) b =
      .error "utf8 to wide-string conversion failed." := by
  unfold u8widen
  rw [List.length_replicate]
  rw [if_neg (by norm_num), if_neg (by norm_num [INT_MAX])]

/-! ## Characterizing num_trailing_partial_bytes on structured buffers -/

theorem not_leading_of_cont (b : Nat) (h : is_utf8_continuation b = true) :
    is_utf8_leading b = false := by
  simp only [is_utf8_continuation, beq_iff_eq] at h
  simp [is_utf8_leading, h]

/-- A buffer ending on a lone leading byte is assigned 1. -/
theorem ntpb_last_leading (s0 : List Nat) (x : Nat) (hx : is_utf8_leading x = true) :
    num_trailing_partial_bytes (s0 ++ [x]) = 1 := by
  unfold num_trailing_partial_bytes
  rw [if_neg (by simp)]
  rw [List.getLastD_concat, hx]
  simp

/-- A buffer ending on a byte that is neither a continuation nor a leading
byte is assigned 0. -/
theorem ntpb_last_plain (s0 : List Nat) (x : Nat)
    (hx : is_utf8_continuation x = false) (hxl : is_utf8_leading x = false) :
    num_trailing_partial_bytes (s0 ++ [x]) = 0 := by
  unfold num_trailing_partial_bytes
  rw [if_neg (by simp)]
  rw [List.getLastD_concat, hxl]
  have htcc := tcc_eq s0 x [] hx (by simp)
  rw [htcc]
  simp

/-- A buffer whose trailing run is a non-empty continuation run preceded
by a non-continuation byte `x` is assigned 0 if the classifier's count
for `x` matches the run length, and run length + 1 otherwise. -/
theorem ntpb_eval_run (s0 : List Nat) (x : Nat) (conts : List Nat)
    (hx : is_utf8_continuation x = false)
    (hc : ∀ b ∈ conts, is_utf8_continuation b = true)
    (hne : conts ≠ []) :
    num_trailing_partial_bytes (s0 ++ x :: conts) =
      if num_succeeding_bytes x = conts.length then 0 else conts.length + 1 := by
  obtain ⟨cs, last, hconts⟩ : ∃ cs last, conts = cs ++ [last] :=
    ⟨conts.dropLast, conts.getLast hne, (List.dropLast_append_getLast hne).symm⟩
  have hlast : is_utf8_continuation last = true := hc last (by rw [hconts]; simp)
  unfold num_trailing_partial_bytes
  rw [if_neg (by simp)]
  have hgl : (s0 ++ x :: conts).getLastD 0 = last := by
    have hsh : s0 ++ x :: conts = (s0 ++ x :: cs) ++ [last] := by
      rw [hconts]; simp
    rw [hsh, List.getLastD_concat]
  rw [hgl, not_leading_of_cont last hlast]
  have htcc := tcc_eq s0 x conts hx hc
  have hcb := ntpb_call_byte_eq s0 x conts hx hc
  rw [htcc, hcb]
  have hlen : conts.length < (s0 ++ x :: conts).length := by
    simp only [List.length_append, List.length_cons]
    omega
  have hcne : conts.length ≠ 0 := by
    rw [hconts]; simp
  simp only [Bool.false_eq_true, if_false]
  rw [if_pos ⟨hcne, hlen⟩]

theorem cont_two_trail (c : Nat) (h1 : 128 ≤ c) :
    is_utf8_continuation (128 + c % 64) = true :=
  cont_of_add128 _ (Nat.mod_lt _ (by omega))

/-- `num_trailing_partial_bytes` on a buffer that ends mid-sequence:
exactly the partial bytes are withheld. -/
theorem ntpb_incomplete (cps : List Nat) (c : Nat) (k : Nat)
    (hc : isScalar c = true) (hk1 : 0 < k) (hk2 : k < (enc8 c).length) :
    num_trailing_partial_bytes (encodeUtf8 cps ++ (enc8 c).take k) = k := by
  have hlt := isScalar_lt c hc
  by_cases h1 : c < 128
  · rw [enc8_ascii c h1] at hk2
    simp at hk2
    omega
  · by_cases h2 : c < 2048
    · rw [enc8_two c (by omega) h2] at hk2 ⊢
      simp only [List.length_cons, List.length_nil] at hk2
      interval_cases k
      · show num_trailing_partial_bytes (encodeUtf8 cps ++ [192 + c / 64]) = 1
        exact ntpb_last_leading _ _ (leading_of_add192 _ (by omega))
    · by_cases h3 : c < 65536
      · rw [enc8_three c (by omega) h3] at hk2 ⊢
        simp only [List.length_cons, List.length_nil] at hk2
        interval_cases k
        · show num_trailing_partial_bytes (encodeUtf8 cps ++ [224 + c / 4096]) = 1
          have : (224 : Nat) + c / 4096 = 192 + (32 + c / 4096) := by omega
          rw [this]
          exact ntpb_last_leading _ _ (leading_of_add192 _ (by omega))
        · show num_trailing_partial_bytes
            (encodeUtf8 cps ++ (224 + c / 4096) :: [128 + c / 64 % 64]) = 2
          have hx : is_utf8_continuation (224 + c / 4096) = false := by
            have : (224 : Nat) + c / 4096 = 192 + (32 + c / 4096) := by omega
            rw [this]
            exact not_cont_of_add192 _ (by omega)
          rw [ntpb_eval_run _ _ _ hx
            (by intro b hb
                simp only [List.mem_cons, List.not_mem_nil, or_false] at hb
                rcases hb with rfl
                exact cont_of_add128 _ (Nat.mod_lt _ (by omega))) (by simp)]
          have hnsb : num_succeeding_bytes (224 + c / 4096) = 3 :=
            nsb_three_byte_lead _ (by omega)
          rw [hnsb]
          simp
      · rw [enc8_four c (by omega)] at hk2 ⊢
        simp only [List.length_cons, List.length_nil] at hk2
        have hdiv : c / 262144 ≤ 4 := by omega
        have hx : is_utf8_continuation (240 + c / 262144) = false := by
          have : (240 : Nat) + c / 262144 = 192 + (48 + c / 262144) := by omega
          rw [this]
          exact not_cont_of_add192 _ (by omega)
        have hnsb : num_succeeding_bytes (240 + c / 262144) = 3 :=
          nsb_four_byte_lead _ (by omega)
        interval_cases k
        · show num_trailing_partial_bytes (encodeUtf8 cps ++ [240 + c / 262144]) = 1
          have : (240 : Nat) + c / 262144 = 192 + (48 + c / 262144) := by omega
          rw [this]
          exact ntpb_last_leading _ _ (leading_of_add192 _ (by omega))
        · show num_trailing_partial_bytes
            (encodeUtf8 cps ++ (240 + c / 262144) :: [128 + c / 4096 % 64]) = 2
          rw [ntpb_eval_run _ _ _ hx
            (by intro b hb
                simp only [List.mem_cons, List.not_mem_nil, or_false] at hb
                rcases hb with rfl
                exact cont_of_add128 _ (Nat.mod_lt _ (by omega))) (by simp)]
          rw [hnsb]
          simp
        · show num_trailing_partial_bytes (encodeUtf8 cps ++
            (240 + c / 262144) :: [128 + c / 4096 % 64, 128 + c / 64 % 64]) = 3
          rw [ntpb_eval_run _ _ _ hx
            (by intro b hb
                simp only [List.mem_cons, List.not_mem_nil, or_false] at hb
                rcases hb with rfl | rfl
                · exact cont_of_add128 _ (Nat.mod_lt _ (by omega))
                · exact cont_of_add128 _ (Nat.mod_lt _ (by omega))) (by simp)]
          rw [hnsb]
          simp

/-- `num_trailing_partial_bytes` on a buffer that ends exactly on a
sequence boundary: nothing is withheld unless the final sequence is a
(complete) 3-byte sequence, which the buggy classifier flags as
incomplete and withholds whole. -/
theorem ntpb_full (cps : List Nat) (h : ∀ c ∈ cps, isScalar c = true) :
    num_trailing_partial_bytes (encodeUtf8 cps) = (encodeUtf8 (tail3 cps)).length := by
  cases hlast : cps.getLast? with
  | none =>
    have : cps = [] := List.getLast?_eq_none_iff.mp hlast
    subst this
    rfl
  | some d =>
    have hmem : d ∈ cps := by
      have := List.dropLast_append_getLast? d hlast
      rw [← this]
      simp
    have hd : isScalar d = true := h d hmem
    have hdl := isScalar_lt d hd
    obtain ⟨cps', hsplit⟩ : ∃ cps', cps = cps' ++ [d] :=
      ⟨cps.dropLast, (List.dropLast_append_getLast? d hlast).symm⟩
    have henc : encodeUtf8 cps = encodeUtf8 cps' ++ enc8 d := by
      rw [hsplit, encodeUtf8_append]
      simp [encodeUtf8]
    have htail : tail3 cps = if (enc8 d).length = 3 then [d] else [] := by
      unfold tail3
      rw [hlast]
    by_cases h1 : d < 128
    · rw [henc, enc8_ascii d h1]
      rw [ntpb_last_plain _ _ (not_cont_of_lt128 d h1) (not_leading_of_lt128 d h1)]
      have hnot3 : ¬((enc8 d).length = 3) := by
        rw [enc8_ascii d h1]; simp
      rw [htail, if_neg hnot3]
      rfl
    · by_cases h2 : d < 2048
      · rw [henc, enc8_two d (by omega) h2]
        have hrun := ntpb_eval_run (encodeUtf8 cps') (192 + d / 64) [128 + d % 64]
          (not_cont_of_add192 _ (by omega))
          (by intro b hb
              simp only [List.mem_cons, List.not_mem_nil, or_false] at hb
              rcases hb with rfl
              exact cont_of_add128 _ (Nat.mod_lt _ (by omega))) (by simp)
        rw [hrun]
        rw [nsb_two_byte_lead (d / 64) (by omega) (by omega)]
        have hnot3 : ¬((enc8 d).length = 3) := by
          rw [enc8_two d (by omega) h2]; simp
        rw [htail, if_neg hnot3]
        simp [encodeUtf8]
      · by_cases h3 : d < 65536
        · rw [henc, enc8_three d (by omega) h3]
          have hx : is_utf8_continuation (224 + d / 4096) = false := by
            have : (224 : Nat) + d / 4096 = 192 + (32 + d / 4096) := by omega
            rw [this]
            exact not_cont_of_add192 _ (by omega)
          have hrun := ntpb_eval_run (encodeUtf8 cps') (224 + d / 4096)
            [128 + d / 64 % 64, 128 + d % 64] hx
            (by intro b hb
                simp only [List.mem_cons, List.not_mem_nil, or_false] at hb
                rcases hb with rfl | rfl
                · exact cont_of_add128 _ (Nat.mod_lt _ (by omega))
                · exact cont_of_add128 _ (Nat.mod_lt _ (by omega))) (by simp)
          rw [hrun]
          rw [nsb_three_byte_lead (d / 4096) (by omega)]
          have his3 : (enc8 d).length = 3 := by
            rw [enc8_three d (by omega) h3]
            rfl
          rw [htail, if_pos his3]
          have : encodeUtf8 [d] = enc8 d := by simp [encodeUtf8]
          rw [this, enc8_three d (by omega) h3]
          simp
        · rw [henc, enc8_four d (by omega)]
          have hx : is_utf8_continuation (240 + d / 262144) = false := by
            have : (240 : Nat) + d / 262144 = 192 + (48 + d / 262144) := by omega
            rw [this]
            exact not_cont_of_add192 _ (by omega)
          have hrun := ntpb_eval_run (encodeUtf8 cps') (240 + d / 262144)
            [128 + d / 4096 % 64, 128 + d / 64 % 64, 128 + d % 64] hx
            (by intro b hb
                simp only [List.mem_cons, List.not_mem_nil, or_false] at hb
                rcases hb with rfl | rfl | rfl
                · exact cont_of_add128 _ (Nat.mod_lt _ (by omega))
                · exact cont_of_add128 _ (Nat.mod_lt _ (by omega))
                · exact cont_of_add128 _ (Nat.mod_lt _ (by omega))) (by simp)
          rw [hrun]
          rw [nsb_four_byte_lead (d / 262144) (by omega)]
          have hnot3 : ¬((enc8 d).length = 3) := by
            rw [enc8_four d (by omega)]; simp
          rw [htail, if_neg hnot3]
          simp
          rfl

/-! ## Structure of prefixes of valid encodings -/

theorem take_append_le {α : Type} (n : Nat) (l1 l2 : List α) (h : n ≤ l1.length) :
    (l1 ++ l2).take n = l1.take n := by
  have hdecomp : l1 ++ l2 = l1.take n ++ (l1.drop n ++ l2) := by
    rw [← List.append_assoc, List.take_append_drop]
  rw [hdecomp, List.take_left' (by rw [List.length_take]; omega)]

theorem drop_append_le {α : Type} (n : Nat) (l1 l2 : List α) (h : n ≤ l1.length) :
    (l1 ++ l2).drop n = l1.drop n ++ l2 := by
  have hdecomp : l1 ++ l2 = l1.take n ++ (l1.drop n ++ l2) := by
    rw [← List.append_assoc, List.take_append_drop]
  rw [hdecomp, List.drop_left' (by rw [List.length_take]; omega)]

theorem encodeUtf8_singleton (d : Nat) : encodeUtf8 [d] = enc8 d := by
  simp [encodeUtf8]

theorem encodeUtf16_singleton (d : Nat) : encodeUtf16 [d] = enc16 d := by
  simp [encodeUtf16]

theorem tail3_nil : tail3 [] = [] := rfl

theorem front3_append_tail3 (cps : List Nat) : front3 cps ++ tail3 cps = cps := by
  unfold front3 tail3
  cases hlast : cps.getLast? with
  | none => simp [List.getLast?_eq_none_iff.mp hlast]
  | some d =>
    dsimp only
    by_cases h3 : (enc8 d).length = 3
    · rw [if_pos h3, if_pos h3]
      exact List.dropLast_append_getLast? d hlast
    · rw [if_neg h3, if_neg h3]
      simp

theorem tail3_mem (cps : List Nat) (c : Nat) (hc : c ∈ tail3 cps) : c ∈ cps := by
  unfold tail3 at hc
  split at hc
  · cases hc
  · next d hlast =>
    split at hc
    · simp only [List.mem_singleton] at hc
      subst hc
      have := List.dropLast_append_getLast? c hlast
      rw [← this]
      simp
    · cases hc

theorem front3_mem (cps : List Nat) (c : Nat) (hc : c ∈ front3 cps) : c ∈ cps := by
  unfold front3 at hc
  split at hc
  · cases hc
  · next d hlast =>
    split at hc
    · exact List.dropLast_subset _ hc
    · exact hc

theorem tail3_append (a b : List Nat) (hb : b ≠ []) : tail3 (a ++ b) = tail3 b := by
  unfold tail3
  rw [List.getLast?_append_of_ne_nil a hb]

theorem encodeUtf8_tail3_length_le (cps : List Nat) :
    (encodeUtf8 (tail3 cps)).length ≤ (encodeUtf8 cps).length := by
  have hd : encodeUtf8 cps = encodeUtf8 (front3 cps) ++ encodeUtf8 (tail3 cps) := by
    rw [← encodeUtf8_append, front3_append_tail3]
  rw [hd, List.length_append]
  omega

theorem pendShape_encode_tail3 (cps : List Nat) (h : ∀ c ∈ cps, isScalar c = true) :
    PendShape (encodeUtf8 (tail3 cps)) := by
  unfold tail3
  split
  · left; rfl
  · next d hlast =>
    split
    · next h3 =>
      right; right
      refine ⟨d, ?_, h3, encodeUtf8_singleton d⟩
      refine h d ?_
      have := List.dropLast_append_getLast? d hlast
      rw [← this]
      simp
    · left; rfl

theorem encode_split (cps : List Nat) :
    ∀ (p r : List Nat), (∀ c ∈ cps, isScalar c = true) →
      p ++ r = encodeUtf8 cps →
      (∃ cps1 cps2, cps = cps1 ++ cps2 ∧ p = encodeUtf8 cps1 ∧ r = encodeUtf8 cps2) ∨
      (∃ cps1 c cps2 k, cps = cps1 ++ c :: cps2 ∧ 0 < k ∧ k < (enc8 c).length ∧
        p = encodeUtf8 cps1 ++ (enc8 c).take k ∧
        r = (enc8 c).drop k ++ encodeUtf8 cps2) := by
  induction cps with
  | nil =>
    intro p r _ he
    left
    have hlen := congrArg List.length he
    simp only [List.length_append, encodeUtf8_nil, List.length_nil] at hlen
    have hp : p = [] := List.eq_nil_of_length_eq_zero (by omega)
    have hr : r = [] := List.eq_nil_of_length_eq_zero (by omega)
    exact ⟨[], [], rfl, by rw [hp]; rfl, by rw [hr]; rfl⟩
  | cons c cs ih =>
    intro p r h he
    rw [encodeUtf8_cons] at he
    rcases Nat.lt_or_ge p.length (enc8 c).length with hlt | hge
    · by_cases hp : p = []
      · subst hp
        left
        refine ⟨[], c :: cs, rfl, rfl, ?_⟩
        rw [encodeUtf8_cons]
        simpa using he
      · right
        have h1 : p = (enc8 c).take p.length := by
          have e1 : (p ++ r).take p.length = p := List.take_left' rfl
          rw [he] at e1
          rw [take_append_le _ _ _ (by omega)] at e1
          exact e1.symm
        have h2 : r = (enc8 c).drop p.length ++ encodeUtf8 cs := by
          have e1 : (p ++ r).drop p.length = r := List.drop_left' rfl
          rw [he] at e1
          rw [drop_append_le _ _ _ (by omega)] at e1
          exact e1.symm
        exact ⟨[], c, cs, p.length, rfl, List.length_pos.mpr hp, hlt,
          by rw [encodeUtf8_nil, List.nil_append]; exact h1, h2⟩
    · have hp1 : p.take (enc8 c).length = enc8 c := by
        have e1 : (p ++ r).take (enc8 c).length = p.take (enc8 c).length :=
          take_append_le _ _ _ hge
        rw [he, List.take_left] at e1
        exact e1.symm
      have hp2 : p.drop (enc8 c).length ++ r = encodeUtf8 cs := by
        have e1 : (p ++ r).drop (enc8 c).length = p.drop (enc8 c).length ++ r :=
          drop_append_le _ _ _ hge
        rw [he, List.drop_left] at e1
        exact e1.symm
      have hsc : ∀ x ∈ cs, isScalar x = true := fun x hx => h x (by simp [hx])
      have hrebuild : p = enc8 c ++ p.drop (enc8 c).length := by
        conv_lhs => rw [← List.take_append_drop (enc8 c).length p]
        rw [hp1]
      rcases ih (p.drop (enc8 c).length) r hsc hp2 with
        ⟨cps1, cps2, hs, hpp, hrr⟩ | ⟨cps1, c', cps2, k, hs, hk1, hk2, hpp, hrr⟩
      · left
        refine ⟨c :: cps1, cps2, by rw [hs]; rfl, ?_, hrr⟩
        rw [encodeUtf8_cons, ← hpp, ← hrebuild]
      · right
        refine ⟨c :: cps1, c', cps2, k, by rw [hs]; rfl, hk1, hk2, ?_, hrr⟩
        rw [encodeUtf8_cons, List.append_assoc, ← hpp, ← hrebuild]

/-! ## Evaluating sync on structured buffers -/

theorem sync_unfold (w : Bool × Nat) (pend chunk : List Nat) :
    sync w pend chunk =
      (if ((pend ++ chunk).take ((pend ++ chunk).length -
            num_trailing_partial_bytes (pend ++ chunk))).isEmpty = true then
        .ok ((pend ++ chunk).drop ((pend ++ chunk).length -
          num_trailing_partial_bytes (pend ++ chunk)), [], 0)
      else
        match u8widen ((pend ++ chunk).take ((pend ++ chunk).length -
            num_trailing_partial_bytes (pend ++ chunk))) true with
        | .ok w' => .ok ((pend ++ chunk).drop ((pend ++ chunk).length -
            num_trailing_partial_bytes (pend ++ chunk)), [w'], 0)
        | .error e => .error e) := rfl

theorem syncRun_nil (pend : List Nat) : syncRun pend [] = .ok (pend, []) := rfl

theorem syncRun_cons (pend y : List Nat) (ys : List (List Nat)) :
    syncRun pend (y :: ys) =
      (match sync (true, 0) pend y with
       | .ok (p1, ws, _) =>
         (match syncRun p1 ys with
          | .ok (pf, wss) => .ok (pf, ws ++ wss)
          | .error e => .error e)
       | .error e => .error e) := rfl

theorem syncRun_cons_ok (pend y p1 : List Nat) (ws : List (List Nat)) (rc : Int)
    (ys : List (List Nat)) (pf : List Nat) (wss : List (List Nat))
    (h1 : sync (true, 0) pend y = .ok (p1, ws, rc))
    (h2 : syncRun p1 ys = .ok (pf, wss)) :
    syncRun pend (y :: ys) = .ok (pf, ws ++ wss) := by
  rw [syncRun_cons, h1]
  dsimp only
  rw [h2]

/-- `sync` on a buffer that is exactly a whole encoding: everything except
the withheld `tail3` suffix is written (when non-empty). -/
theorem sync_boundary (pend y cps1 : List Nat)
    (h : ∀ c ∈ cps1, isScalar c = true)
    (hb : pend ++ y = encodeUtf8 cps1)
    (hlen : (encodeUtf8 cps1).length < INT_MAX) :
    sync (true, 0) pend y =
      .ok (encodeUtf8 (tail3 cps1),
        if front3 cps1 = [] then [] else [encodeUtf16 (front3 cps1)], 0) := by
  rw [sync_unfold, hb]
  rw [ntpb_full cps1 h]
  have hdecomp : encodeUtf8 cps1 = encodeUtf8 (front3 cps1) ++ encodeUtf8 (tail3 cps1) := by
    rw [← encodeUtf8_append, front3_append_tail3]
  have hlen2 : (encodeUtf8 cps1).length - (encodeUtf8 (tail3 cps1)).length =
      (encodeUtf8 (front3 cps1)).length := by
    conv_lhs => rw [hdecomp]
    rw [List.length_append]
    omega
  rw [hlen2]
  conv_lhs => rw [hdecomp]
  rw [List.take_left, List.drop_left]
  by_cases hfe : front3 cps1 = []
  · have hke : encodeUtf8 (front3 cps1) = [] := by rw [hfe]; rfl
    rw [if_pos (by rw [hke]; rfl), if_pos hfe]
  · have hke : encodeUtf8 (front3 cps1) ≠ [] :=
      fun hc => hfe (encodeUtf8_eq_nil_of_eq _ hc)
    have hie : (encodeUtf8 (front3 cps1)).isEmpty = false := by
      cases hE : encodeUtf8 (front3 cps1) with
      | nil => exact absurd hE hke
      | cons a l => rfl
    rw [hie]
    simp only [Bool.false_eq_true, if_false]
    have hwid : u8widen (encodeUtf8 (front3 cps1)) true = .ok (encodeUtf16 (front3 cps1)) := by
      refine u8widen_encode _ (fun x hx => h x (front3_mem _ _ hx)) ?_
      calc (encodeUtf8 (front3 cps1)).length
          ≤ (encodeUtf8 cps1).length := by
            conv_rhs => rw [hdecomp]
            rw [List.length_append]
            omega
        _ < INT_MAX := hlen
    rw [hwid, if_neg hfe]

/-- `sync` on a buffer that ends mid-sequence: the whole-sequence prefix
is written (when non-empty) and exactly the partial bytes are withheld. -/
theorem sync_mid (pend y cps1 : List Nat) (c k : Nat)
    (hcs : ∀ x ∈ cps1, isScalar x = true) (hc : isScalar c = true)
    (hk1 : 0 < k) (hk2 : k < (enc8 c).length)
    (hb : pend ++ y = encodeUtf8 cps1 ++ (enc8 c).take k)
    (hlen : (encodeUtf8 cps1 ++ (enc8 c).take k).length < INT_MAX) :
    sync (true, 0) pend y =
      .ok ((enc8 c).take k,
        if cps1 = [] then [] else [encodeUtf16 cps1], 0) := by
  rw [sync_unfold, hb]
  rw [ntpb_incomplete cps1 c k hc hk1 hk2]
  have htk : ((enc8 c).take k).length = k := by
    rw [List.length_take]; omega
  have hlen2 : (encodeUtf8 cps1 ++ (enc8 c).take k).length - k =
      (encodeUtf8 cps1).length := by
    rw [List.length_append, htk]
    omega
  rw [hlen2, List.take_left, List.drop_left]
  by_cases hfe : cps1 = []
  · have hke : encodeUtf8 cps1 = [] := by rw [hfe]; rfl
    rw [if_pos (by rw [hke]; rfl), if_pos hfe]
  · have hke : encodeUtf8 cps1 ≠ [] := fun hc2 => hfe (encodeUtf8_eq_nil_of_eq _ hc2)
    have hie : (encodeUtf8 cps1).isEmpty = false := by
      cases hE : encodeUtf8 cps1 with
      | nil => exact absurd hE hke
      | cons a l => rfl
    rw [hie]
    simp only [Bool.false_eq_true, if_false]
    have hwid : u8widen (encodeUtf8 cps1) true = .ok (encodeUtf16 cps1) := by
      refine u8widen_encode _ hcs ?_
      calc (encodeUtf8 cps1).length
          ≤ (encodeUtf8 cps1 ++ (enc8 c).take k).length := by
            rw [List.length_append]
            omega
        _ < INT_MAX := hlen
    rw [hwid, if_neg hfe]

/-- `sync` with an empty chunk and a well-shaped pending buffer changes
nothing and writes nothing. -/
theorem sync_pend_id (pend : List Nat) (hp : PendShape pend) :
    sync (true, 0) pend [] = .ok (pend, [], 0) := by
  rcases hp with rfl | ⟨c, k, hc, hk1, hk2, rfl⟩ | ⟨d, hd, h3, rfl⟩
  · rfl
  · rw [sync_unfold, List.append_nil]
    have hk : num_trailing_partial_bytes ((enc8 c).take k) = k := by
      have := ntpb_incomplete [] c k hc hk1 hk2
      rw [encodeUtf8_nil, List.nil_append] at this
      exact this
    rw [hk]
    have hlen : ((enc8 c).take k).length = k := by
      rw [List.length_take]; omega
    rw [hlen]
    simp
  · rw [sync_unfold, List.append_nil]
    have hk : num_trailing_partial_bytes (enc8 d) = 3 := by
      have := ntpb_full [d] (by
        intro x hx
        simp only [List.mem_singleton] at hx
        subst hx
        exact hd)
      rw [encodeUtf8_singleton] at this
      have ht : tail3 [d] = [d] := by
        unfold tail3
        simp [h3]
      rw [ht, encodeUtf8_singleton, h3] at this
      exact this
    rw [hk, h3]
    simp

/-- Master invariant of the output adapter: feeding chunks whose
concatenation, together with an unfed residue `r`, is a valid encoding,
starting from a well-shaped pending buffer whose content completes the
picture, succeeds, writes exactly the UTF-16 encoding of an initial
segment of the code points, and leaves a well-shaped pending buffer.
When the chunks exhaust the whole encoding, the final pending buffer is
exactly the withheld `tail3` suffix, independent of the chunking. -/
theorem syncRun_master (chunks : List (List Nat)) :
    ∀ (pend cps r : List Nat),
      (∀ c ∈ cps, isScalar c = true) →
      (encodeUtf8 cps).length < INT_MAX →
      pend ++ (chunks.flatten ++ r) = encodeUtf8 cps →
      PendShape pend →
      ∃ cpsW cpsR pend' writes,
        syncRun pend chunks = .ok (pend', writes) ∧
        cps = cpsW ++ cpsR ∧
        writes.flatten = encodeUtf16 cpsW ∧
        pend' ++ r = encodeUtf8 cpsR ∧
        (∀ c ∈ cpsR, isScalar c = true) ∧
        PendShape pend' ∧
        (chunks.flatten = [] → pend' = pend ∧ cpsW = []) ∧
        (r = [] → chunks.flatten ≠ [] → pend' = encodeUtf8 (tail3 cps)) := by
  induction chunks with
  | nil =>
    intro pend cps r h hlen H hshape
    refine ⟨[], cps, pend, [], syncRun_nil pend, rfl, rfl, ?_, h, hshape,
      fun _ => ⟨rfl, rfl⟩, ?_⟩
    · simpa using H
    · intro _ hne
      exact absurd rfl hne
  | cons y ys ih =>
    intro pend cps r h hlen H hshape
    rw [List.flatten_cons] at H
    by_cases hy : y = []
    · subst hy
      rw [List.nil_append] at H
      obtain ⟨cpsW, cpsR, pend', writes, hrun, hsp, hw, hpr, hscalR, hshape', hc1, hc2⟩ :=
        ih pend cps r h hlen H hshape
      refine ⟨cpsW, cpsR, pend', writes, ?_, hsp, hw, hpr, hscalR, hshape', ?_, ?_⟩
      · rw [syncRun_cons, sync_pend_id pend hshape]
        dsimp only
        rw [hrun]
        rfl
      · rw [List.flatten_cons, List.nil_append]
        exact hc1
      · rw [List.flatten_cons, List.nil_append]
        exact hc2
    · have Hb : (pend ++ y) ++ (ys.flatten ++ r) = encodeUtf8 cps := by
        rw [← H]
        simp [List.append_assoc]
      rcases encode_split cps (pend ++ y) (ys.flatten ++ r) h Hb with
        ⟨cps1, cps2, hsp12, hbuf, hrest⟩ | ⟨cps1, c, cps2, k, hsp12, hk1, hk2, hbuf, hrest⟩
      · -- the buffer ends on a sequence boundary
        have hsc1 : ∀ x ∈ cps1, isScalar x = true := fun x hx =>
          h x (by rw [hsp12]; simp [hx])
        have hsc2 : ∀ x ∈ cps2, isScalar x = true := fun x hx =>
          h x (by rw [hsp12]; simp [hx])
        have hlencps : encodeUtf8 cps = encodeUtf8 cps1 ++ encodeUtf8 cps2 := by
          rw [hsp12, encodeUtf8_append]
        have hlen1 : (encodeUtf8 cps1).length < INT_MAX := by
          have hl := congrArg List.length hlencps
          simp only [List.length_append] at hl
          omega
        have hsync := sync_boundary pend y cps1 hsc1 hbuf hlen1
        have hscT : ∀ x ∈ tail3 cps1 ++ cps2, isScalar x = true := by
          intro x hx
          rcases List.mem_append.mp hx with hx | hx
          · exact hsc1 x (tail3_mem _ _ hx)
          · exact hsc2 x hx
        have hlenT : (encodeUtf8 (tail3 cps1 ++ cps2)).length < INT_MAX := by
          rw [encodeUtf8_append, List.length_append]
          have h1 : (encodeUtf8 (tail3 cps1)).length ≤ (encodeUtf8 cps1).length :=
            encodeUtf8_tail3_length_le cps1
          have h2 := congrArg List.length hlencps
          simp only [List.length_append] at h2
          omega
        have HT : encodeUtf8 (tail3 cps1) ++ (ys.flatten ++ r) =
            encodeUtf8 (tail3 cps1 ++ cps2) := by
          rw [encodeUtf8_append, hrest]
        obtain ⟨cpsW2, cpsR, pend', writes2, hrun2, hsp2, hw2, hpr2, hscalR, hshape', hc1, hc2⟩ :=
          ih (encodeUtf8 (tail3 cps1)) (tail3 cps1 ++ cps2) r hscT hlenT HT
            (pendShape_encode_tail3 cps1 hsc1)
        refine ⟨front3 cps1 ++ cpsW2, cpsR, pend',
          (if front3 cps1 = [] then [] else [encodeUtf16 (front3 cps1)]) ++ writes2,
          ?_, ?_, ?_, hpr2, hscalR, hshape', ?_, ?_⟩
        · rw [syncRun_cons, hsync]
          dsimp only
          rw [hrun2]
        · calc cps = cps1 ++ cps2 := hsp12
            _ = (front3 cps1 ++ tail3 cps1) ++ cps2 := by rw [front3_append_tail3]
            _ = front3 cps1 ++ (tail3 cps1 ++ cps2) := by rw [List.append_assoc]
            _ = front3 cps1 ++ (cpsW2 ++ cpsR) := by rw [hsp2]
            _ = (front3 cps1 ++ cpsW2) ++ cpsR := by rw [List.append_assoc]
        · rw [List.flatten_append, hw2, encodeUtf16_append]
          congr 1
          by_cases hfe : front3 cps1 = []
          · rw [if_pos hfe, hfe]
            rfl
          · rw [if_neg hfe]
            simp
        · intro hfe
          exfalso
          rw [List.flatten_cons] at hfe
          exact hy (List.append_eq_nil.mp hfe).1
        · intro hr hne
          by_cases hysf : ys.flatten = []
          · rw [hysf, hr, List.append_nil] at hrest
            have hc2nil : cps2 = [] := (encodeUtf8_eq_nil_iff cps2).mp hrest.symm
            obtain ⟨hpe, -⟩ := hc1 hysf
            rw [hpe, hsp12, hc2nil, List.append_nil]
          · rw [hc2 hr hysf]
            have hc2ne : cps2 ≠ [] := by
              intro hcc
              rw [hcc] at hrest
              rw [hr, List.append_nil] at hrest
              rw [(encodeUtf8_eq_nil_iff []).mpr rfl] at hrest
              exact hysf hrest
            congr 1
            rw [tail3_append _ _ hc2ne, hsp12, tail3_append _ _ hc2ne]
      · -- the buffer ends mid-sequence
        have hsc1 : ∀ x ∈ cps1, isScalar x = true := fun x hx =>
          h x (by rw [hsp12]; simp [hx])
        have hscc : isScalar c = true := h c (by rw [hsp12]; simp)
        have hsc2 : ∀ x ∈ cps2, isScalar x = true := fun x hx =>
          h x (by rw [hsp12]; simp [hx])
        have hlenbuf : (encodeUtf8 cps1 ++ (enc8 c).take k).length < INT_MAX := by
          have h1 := congrArg List.length Hb
          have h2 := congrArg List.length hbuf
          simp only [List.length_append, List.length_take] at h1 h2 ⊢
          omega
        have hsync := sync_mid pend y cps1 c k hsc1 hscc hk1 hk2 hbuf hlenbuf
        have hscT : ∀ x ∈ c :: cps2, isScalar x = true := by
          intro x hx
          rcases List.mem_cons.mp hx with rfl | hx
          · exact hscc
          · exact hsc2 x hx
        have hlenT : (encodeUtf8 (c :: cps2)).length < INT_MAX := by
          have he : encodeUtf8 cps = encodeUtf8 cps1 ++ (enc8 c ++ encodeUtf8 cps2) := by
            rw [hsp12, encodeUtf8_append, encodeUtf8_cons]
          have hl := congrArg List.length he
          rw [encodeUtf8_cons]
          simp only [List.length_append] at hl ⊢
          omega
        have HT : (enc8 c).take k ++ (ys.flatten ++ r) = encodeUtf8 (c :: cps2) := by
          rw [hrest, ← List.append_assoc, List.take_append_drop, encodeUtf8_cons]
        have hshapeT : PendShape ((enc8 c).take k) :=
          Or.inr (Or.inl ⟨c, k, hscc, hk1, hk2, rfl⟩)
        obtain ⟨cpsW2, cpsR, pend', writes2, hrun2, hsp2, hw2, hpr2, hscalR, hshape', hc1, hc2⟩ :=
          ih ((enc8 c).take k) (c :: cps2) r hscT hlenT HT hshapeT
        refine ⟨cps1 ++ cpsW2, cpsR, pend',
          (if cps1 = [] then [] else [encodeUtf16 cps1]) ++ writes2, ?_, ?_, ?_, hpr2, hscalR,
          hshape', ?_, ?_⟩
        · rw [syncRun_cons, hsync]
          dsimp only
          rw [hrun2]
        · calc cps = cps1 ++ c :: cps2 := hsp12
            _ = cps1 ++ (cpsW2 ++ cpsR) := by rw [hsp2]
            _ = (cps1 ++ cpsW2) ++ cpsR := by rw [List.append_assoc]
        · rw [List.flatten_append, hw2, encodeUtf16_append]
          congr 1
          by_cases hfe : cps1 = []
          · rw [if_pos hfe, hfe]
            rfl
          · rw [if_neg hfe]
            simp
        · intro hfe
          exfalso
          rw [List.flatten_cons] at hfe
          exact hy (List.append_eq_nil.mp hfe).1
        · intro hr hne
          by_cases hysf : ys.flatten = []
          · exfalso
            rw [hysf, hr, List.nil_append] at hrest
            have hdk : (enc8 c).drop k = [] := (List.append_eq_nil.mp hrest.symm).1
            have hlendk := congrArg List.length hdk
            simp only [List.length_drop, List.length_nil] at hlendk
            omega
          · rw [hc2 hr hysf]
            congr 1
            rw [hsp12, tail3_append cps1 (c :: cps2) (by simp)]

/-! ## Claim C3 -/

theorem encodeUtf16_replicate97 (n : Nat) :
    encodeUtf16 (List.replicate n 97) = List.replicate n 97 := by
  induction n with
  | zero => rfl
  | succ n ih =>
    rw [List.replicate_succ, encodeUtf16_cons, ih]
    have h16 : enc16 97 = [97] := by simp [enc16]
    rw [h16]
    rfl

theorem ntpb_replicate97 (n : Nat) (hn : 0 < n) :
    num_trailing_partial_bytes (List.replicate n 97) = 0 := by
  obtain ⟨m, rfl⟩ : ∃ m, n = m + 1 := ⟨n - 1, by omega⟩
  rw [List.replicate_succ']
  exact ntpb_last_plain _ _ (not_cont_of_lt128 97 (by omega))
    (not_leading_of_lt128 97 (by omega))

theorem isEmpty_eq_false_of_length_pos {α : Type} (l : List α) (h : 0 < l.length) :
    l.isEmpty = false := by
  cases l with
  | nil => simp at h
  | cons a t => rfl

theorem sync_replicate97 (n : Nat) (hn : 0 < n) (hlt : n < INT_MAX) :
    sync (true, 0) [] (List.replicate n 97) = .ok ([], [List.replicate n 97], 0) := by
  rw [sync_unfold, List.nil_append, ntpb_replicate97 n hn]
  have ht : (List.replicate n 97).take ((List.replicate n 97).length - 0) =
      List.replicate n 97 := by
    rw [Nat.sub_zero, List.take_length]
  have hd : (List.replicate n 97).drop ((List.replicate n 97).length - 0) = [] := by
    rw [Nat.sub_zero, List.drop_length]
  rw [ht, hd]
  have hie : (List.replicate n 97).isEmpty = false := by
    cases hE : List.replicate n 97 with
    | nil =>
      exfalso
      have := congrArg List.length hE
      simp at this
      omega
    | cons a l => rfl
  rw [hie]
  simp only [Bool.false_eq_true, if_false]
  have hw : u8widen (List.replicate n 97) true = .ok (List.replicate n 97) := by
    have hmain := u8widen_encode (List.replicate n 97)
      (by intro c hc
          rw [(List.mem_replicate.mp hc).2]
          decide)
      (by rw [encodeUtf8_replicate97, List.length_replicate]; exact hlt)
    rw [encodeUtf8_replicate97, encodeUtf16_replicate97] at hmain
    exact hmain
  rw [hw]

theorem sync_replicate97_INT_MAX :
    sync (true, 0) [] (List.replicate 2147483647 97) =
      .error "utf8 to wide-string conversion failed." := by
  rw [sync_unfold, List.nil_append, ntpb_replicate97 2147483647 (by norm_num)]
  have ht : (List.replicate 2147483647 97).take
      ((List.replicate 2147483647 97).length - 0) = List.replicate 2147483647 97 := by
    rw [Nat.sub_zero, List.take_length]
  have hd : (List.replicate 2147483647 97).drop
      ((List.replicate 2147483647 97).length - 0) = [] := by
    rw [Nat.sub_zero, List.drop_length]
  rw [ht, hd]
  rw [isEmpty_eq_false_of_length_pos _ (by rw [List.length_replicate]; norm_num)]
  simp only [Bool.false_eq_true, if_false]
  rw [u8widen_replicate_INT_MAX true]

/-- C3 (amended): for every valid UTF-8 string `s` of fewer than `INT_MAX`
bytes and every way of splitting `s` into consecutive non-empty chunks,
feeding the chunks through `sync` in order succeeds, ends in the same
pending state as a single `sync(s)` call, and produces the same
concatenated sequence of terminal writes. -/
theorem C3_chunk_invariance (s : List Nat) (chunks : List (List Nat))
    (hs : ValidUtf8 s) (hlen : s.length < INT_MAX)
    (hchunks : ∀ yc ∈ chunks, yc ≠ []) (hjoin : chunks.flatten = s) :
    ∃ p1 w1 p2 w2,
      syncRun [] chunks = .ok (p1, w1) ∧
      syncRun [] [s] = .ok (p2, w2) ∧
      p1 = p2 ∧ w1.flatten = w2.flatten := by
  obtain ⟨cps, hscal, rfl⟩ := hs
  by_cases hnil : encodeUtf8 cps = []
  · have hchunksnil : chunks = [] := by
      cases chunks with
      | nil => rfl
      | cons a l =>
        exfalso
        refine hchunks a (by simp) ?_
        rw [List.flatten_cons, hnil] at hjoin
        exact (List.append_eq_nil.mp hjoin).1
    subst hchunksnil
    refine ⟨[], [], [], [], rfl, ?_, rfl, rfl⟩
    rw [hnil]
    rfl
  · have hne : chunks.flatten ≠ [] := by rw [hjoin]; exact hnil
    obtain ⟨cpsWA, cpsRA, p1, w1, hrunA, hspA, hwA, hprA, hscalA, -, -, hclA⟩ :=
      syncRun_master chunks [] cps [] hscal hlen (by simp [hjoin]) (Or.inl rfl)
    obtain ⟨cpsWB, cpsRB, p2, w2, hrunB, hspB, hwB, hprB, hscalB, -, -, hclB⟩ :=
      syncRun_master [encodeUtf8 cps] [] cps [] hscal hlen (by simp) (Or.inl rfl)
    have hp1 : p1 = encodeUtf8 (tail3 cps) := hclA rfl hne
    have hp2 : p2 = encodeUtf8 (tail3 cps) := hclB rfl (by simpa using hnil)
    have hRA : encodeUtf8 cpsRA = encodeUtf8 (tail3 cps) := by
      rw [List.append_nil] at hprA
      rw [← hprA, hp1]
    have hRB : encodeUtf8 cpsRB = encodeUtf8 (tail3 cps) := by
      rw [List.append_nil] at hprB
      rw [← hprB, hp2]
    have hReq : cpsRA = cpsRB :=
      encodeUtf8_inj cpsRA cpsRB hscalA hscalB (by rw [hRA, hRB])
    have hWeq : cpsWA = cpsWB := by
      refine List.append_cancel_right (?_ : cpsWA ++ cpsRA = cpsWB ++ cpsRA)
      rw [← hspA]
      rw [hReq, ← hspB]
    refine ⟨p1, w1, p2, w2, hrunA, hrunB, by rw [hp1, hp2], ?_⟩
    rw [hwA, hwB, hWeq]

/-- Witness for C3: "é" (C3 A9) split between its two bytes. -/
theorem C3_chunk_invariance_witness :
    ∃ p1 w1 p2 w2,
      syncRun [] [[195], [169]] = .ok (p1, w1) ∧
      syncRun [] [[195, 169]] = .ok (p2, w2) ∧
      p1 = p2 ∧ w1.flatten = w2.flatten := by
  refine C3_chunk_invariance [195, 169] [[195], [169]] ⟨[233], by decide, rfl⟩
    (by norm_num [INT_MAX]) ?_ (by decide)
  intro yc hyc
  simp only [List.mem_cons, List.not_mem_nil, or_false] at hyc
  rcases hyc with rfl | rfl
  · decide
  · decide

/-- C3 counterexample: on a valid all-ASCII string of length `INT_MAX`,
the single `sync(s)` call throws inside `u8widen` (writing nothing),
while feeding the same string as two chunks stays below the length guard
and writes everything — so the unqualified claim fails at this input. -/
theorem C3_counterexample :
    ValidUtf8 (List.replicate 2147483647 97) ∧
    (∀ yc ∈ [[97], List.replicate 2147483646 97], yc ≠ ([] : List Nat)) ∧
    ([[97], List.replicate 2147483646 97] : List (List Nat)).flatten =
      List.replicate 2147483647 97 ∧
    syncRun [] [[97], List.replicate 2147483646 97] =
      .ok ([], [[97], List.replicate 2147483646 97]) ∧
    syncRun [] [List.replicate 2147483647 97] =
      .error "utf8 to wide-string conversion failed." := by
  refine ⟨?_, ?_, ?_, ?_, ?_⟩
  · refine ⟨List.replicate 2147483647 97, ?_, (encodeUtf8_replicate97 _).symm⟩
    intro c hc
    rw [(List.mem_replicate.mp hc).2]
    decide
  · intro yc hyc
    simp only [List.mem_cons, List.not_mem_nil, or_false] at hyc
    rcases hyc with rfl | rfl
    · decide
    · intro hcon
      have hl := congrArg List.length hcon
      rw [List.length_replicate, List.length_nil] at hl
      omega
  · show [97] ++ (List.replicate 2147483646 97 ++ []) = List.replicate 2147483647 97
    rw [List.append_nil]
    have : (97 : Nat) :: List.replicate 2147483646 97 = List.replicate 2147483647 97 := by
      rw [← List.replicate_succ]
    rw [← this]
    rfl
  · have h2 : syncRun [] [List.replicate 2147483646 97] =
        .ok ([], [List.replicate 2147483646 97] ++ []) :=
      syncRun_cons_ok [] (List.replicate 2147483646 97) [] [List.replicate 2147483646 97] 0
        [] [] []
        (sync_replicate97 2147483646 (by norm_num) (by norm_num [INT_MAX])) (syncRun_nil [])
    exact syncRun_cons_ok [] [97] [] [[97]] 0 [List.replicate 2147483646 97] []
      ([List.replicate 2147483646 97] ++ []) rfl h2
  · rw [syncRun_cons, sync_replicate97_INT_MAX]

/-! ## Claim C4 -/

/-- C4 (amended): for every sequence of input chunks whose concatenation
is a prefix of a valid UTF-8 string of fewer than `INT_MAX` bytes, the
pending buffer after the run has length strictly less than 4 and is
empty, a strict prefix of the encoding of some scalar with a multi-byte
encoding, or the complete encoding of a scalar with a 3-byte encoding
(which the buggy classifier withholds whole). -/
theorem C4_pending_shape (chunks : List (List Nat)) (cps r : List Nat)
    (hscal : ∀ c ∈ cps, isScalar c = true)
    (hlen : (encodeUtf8 cps).length < INT_MAX)
    (hpre : chunks.flatten ++ r = encodeUtf8 cps) :
    ∃ pend' writes, syncRun [] chunks = .ok (pend', writes) ∧
      pend'.length < 4 ∧
      (pend' = [] ∨ StrictPrefixOfMultibyteSeq pend' ∨
        ∃ d, isScalar d = true ∧ (enc8 d).length = 3 ∧ pend' = enc8 d) := by
  obtain ⟨cpsW, cpsR, pend', writes, hrun, -, -, -, -, hshape', -, -⟩ :=
    syncRun_master chunks [] cps r hscal hlen (by simpa using hpre) (Or.inl rfl)
  refine ⟨pend', writes, hrun, ?_, ?_⟩
  · rcases hshape' with rfl | ⟨c, k, hc, hk1, hk2, rfl⟩ | ⟨d, hd, h3, rfl⟩
    · simp
    · rw [List.length_take]
      have := enc8_length_le c
      omega
    · rw [h3]
      omega
  · rcases hshape' with rfl | ⟨c, k, hc, hk1, hk2, hpe⟩ | ⟨d, hd, h3, hpe⟩
    · left
      rfl
    · right
      left
      refine ⟨c, hc, by omega, ?_, ?_⟩
      · rw [hpe, List.length_take]
        omega
      · rw [hpe, List.length_take]
        have hmin : min k (enc8 c).length = k := by omega
        rw [hmin]
    · right
      right
      exact ⟨d, hd, h3, hpe⟩

/-- Witness for C4: the partial 3-byte sequence E0 A0 fed as one chunk. -/
theorem C4_pending_shape_witness :
    ∃ pend' writes, syncRun [] [[224, 160]] = .ok (pend', writes) ∧
      pend'.length < 4 ∧
      (pend' = [] ∨ StrictPrefixOfMultibyteSeq pend' ∨
        ∃ d, isScalar d = true ∧ (enc8 d).length = 3 ∧ pend' = enc8 d) := by
  refine C4_pending_shape [[224, 160]] [2048] [128] (by decide) (by decide) (by decide)

/-- C4 counterexample: with invalid input C3 80 80 80 80 the pending
buffer keeps all 5 bytes, violating the claimed length bound `< 4`; and
with the valid input E0 A0 80 the pending buffer is the *complete* 3-byte
sequence, which is not empty and not a strict prefix of any valid
multi-byte sequence — so the claim fails as stated. -/
theorem C4_counterexample :
    syncRun [] [[195, 128, 128, 128, 128]] = .ok ([195, 128, 128, 128, 128], []) ∧
    4 ≤ ([195, 128, 128, 128, 128] : List Nat).length ∧
    syncRun [] [[224, 160, 128]] = .ok ([224, 160, 128], []) ∧
    ([224, 160, 128] : List Nat) ≠ [] ∧
    ¬ StrictPrefixOfMultibyteSeq [224, 160, 128] := by
  refine ⟨rfl, by decide, rfl, by decide, ?_⟩
  rintro ⟨c, hsc, h2, hlt, htake⟩
  have hlen4 : (enc8 c).length = 4 := by
    have := enc8_length_le c
    simp only [List.length_cons, List.length_nil] at hlt
    omega
  have hc4 : 65536 ≤ c := by
    by_contra hcon
    push_neg at hcon
    by_cases h1 : c < 128
    · rw [enc8_ascii c h1] at hlen4
      simp at hlen4
    · by_cases h2' : c < 2048
      · rw [enc8_two c (by omega) h2'] at hlen4
        simp at hlen4
      · rw [enc8_three c (by omega) (by omega)] at hlen4
        simp at hlen4
  rw [enc8_four c hc4] at htake
  simp only [List.length_cons, List.length_nil, List.take_succ_cons, List.take_zero,
    List.cons.injEq, and_true] at htake
  omega

/-! ## Claim C1 -/

/-- C1: the spec demands that the Sequence Classifier return 2 for every
lead byte of shape `1110xxxx` (0xE0-0xEF).  The code instead returns 3 on
that whole range: in the `case 7` branch `c >> 5 == 7` forces bit 5 of `c`
to be set, so the test `c & (1 << 5)` is vacuously true and `return 2` is
dead code.  This theorem evaluates the classifier on the failing range
(and on the ranges the claim describes correctly). -/
theorem C1_classifier_eval :
    num_succeeding_bytes 224 = 3 ∧
    ((List.range 16).all fun d => num_succeeding_bytes (224 + d) == 3) = true ∧
    ((List.range 128).all fun c => num_succeeding_bytes c == 0) = true ∧
    ((List.range 32).all fun d => num_succeeding_bytes (192 + d) == 1) = true ∧
    ((List.range 8).all fun d => num_succeeding_bytes (240 + d) == 3) = true := by
  decide

/-! ## Claim C2 -/

/-- C2: the claim states that a buffer ending exactly on a complete
multi-byte UTF-8 sequence yields `num_trailing_partial_bytes = 0`.  For
the complete 3-byte sequence E0 A0 80 (U+0800) the code returns 3, because
the buggy classifier reports 3 expected continuation bytes for the lead
0xE0 while the scan found only 2.  (Complete 2- and 4-byte sequences and
ASCII endings do return 0.) -/
theorem C2_complete_three_byte_eval :
    num_trailing_partial_bytes [224, 160, 128] = 3 ∧
    num_trailing_partial_bytes [195, 169] = 0 ∧
    num_trailing_partial_bytes [240, 144, 128, 128] = 0 ∧
    num_trailing_partial_bytes [97] = 0 ∧
    num_trailing_partial_bytes [195] = 1 ∧
    num_trailing_partial_bytes [240, 144, 128] = 3 := by
  decide

/-! ## Claim C5 -/

/-- C5: the spec says `underflow` converts the batch with
`narrow(batch, strict=false)`, so a lone unresolvable surrogate would be
replaced.  The source calls `u8narrow(wideBuffer)` with the default
`throw_on_inv_chars = u8_default_throw = true`: on the batch consisting of
the lone high surrogate 0xD800 (after a failed completion read) the
conversion fails and `underflow` raises `U8ConversionError` instead of
replacing the unit. -/
theorem C5_underflow_strict_raises :
    underflow (some [55296]) none = .error "wide-string to utf8 conversion failed." ∧
    u8narrow [55296] false = .ok [239, 191, 189] := by
  exact ⟨rfl, rfl⟩

/-! ## Claim C9 -/

/-- C9: a failed first `ReadConsoleW` makes `underflow` report eof, and
`sync` ignores the outcome of `WriteConsoleW` entirely: its result is
independent of the write outcome, it returns 0 whenever it does not
throw, and it issues at most one terminal write (no retry). -/
theorem C9_terminal_io_failures (extraRead : Option (List Nat))
    (writeOutcome writeOutcome' : Bool × Nat) (pending chunk : List Nat) :
    underflow none extraRead = .ok none ∧
    sync writeOutcome pending chunk = sync writeOutcome' pending chunk ∧
    (∀ p ws rc, sync writeOutcome pending chunk = .ok (p, ws, rc) →
      rc = 0 ∧ ws.length ≤ 1) := by
  refine ⟨rfl, rfl, ?_⟩
  intro p ws rc h
  simp only [sync] at h
  split at h
  · simp only [Except.ok.injEq, Prod.mk.injEq] at h
    obtain ⟨-, h2, h3⟩ := h
    subst h2; subst h3
    exact ⟨rfl, by simp⟩
  · split at h
    · simp only [Except.ok.injEq, Prod.mk.injEq] at h
      obtain ⟨-, h2, h3⟩ := h
      subst h2; subst h3
      exact ⟨rfl, by simp⟩
    · cases h

/-- Witness for C9 at a concrete input: a write outcome reporting failure
and a short write leaves `sync`'s behavior unchanged. -/
theorem C9_terminal_io_failures_witness :
    underflow none none = .ok none ∧
    sync (false, 0) [] [97] = sync (true, 1) [] [97] ∧
    (0 : Int) = 0 ∧ [[97]].length ≤ 1 := by
  obtain ⟨h1, h2, h3⟩ := C9_terminal_io_failures none (false, 0) (true, 1) [] [97]
  refine ⟨h1, h2, ?_⟩
  have := h3 [] [[97]] 0 (by rfl)
  exact ⟨rfl, this.2⟩

/-! ## Claim C6 -/

/-- C6 (amended): lenient conversion never raises for inputs shorter than
`INT_MAX`, and a `ConversionError` arises only for an input of length at
least `INT_MAX` (either mode) or in strict mode on invalid encoding. -/
theorem C6_lenient_no_error (s : List Nat) (b : Bool) (hlen : s.length < INT_MAX) :
    (∃ w, u8widen s false = .ok w) ∧ (∃ t, u8narrow s false = .ok t) ∧
    (∀ e, u8widen s b = .error e → b = true ∧ utf8Decode s = none) ∧
    (∀ e, u8narrow s b = .error e → b = true ∧ utf16Decode s = none) := by
  refine ⟨u8widen_lenient_ok s hlen, u8narrow_lenient_ok s hlen, ?_, ?_⟩
  · intro e he
    unfold u8widen at he
    by_cases h0 : s.length = 0
    · rw [if_pos h0] at he
      cases he
    · rw [if_neg h0, if_pos hlen] at he
      cases b with
      | false =>
        exfalso
        simp only [Bool.false_eq_true, if_false] at he
        cases he
      | true =>
        refine ⟨rfl, ?_⟩
        simp only [if_true] at he
        cases hd : utf8Decode s with
        | none => rfl
        | some cps =>
          rw [hd] at he
          cases he
  · intro e he
    unfold u8narrow at he
    by_cases h0 : s.length = 0
    · rw [if_pos h0] at he
      cases he
    · rw [if_neg h0, if_pos hlen] at he
      cases b with
      | false =>
        exfalso
        simp only [Bool.false_eq_true, if_false] at he
        cases he
      | true =>
        refine ⟨rfl, ?_⟩
        simp only [if_true] at he
        cases hd : utf16Decode s with
        | none => rfl
        | some cps =>
          rw [hd] at he
          cases he

/-- Witness for C6 at concrete inputs. -/
theorem C6_lenient_no_error_witness :
    (∃ w, u8widen [97] false = .ok w) ∧ (∃ t, u8narrow [97] false = .ok t) := by
  have h := C6_lenient_no_error [97] true (by norm_num [INT_MAX])
  exact ⟨h.1, h.2.1⟩

/-- C6 counterexample: on an input of length `INT_MAX` the lenient
conversion still raises `ConversionError`, because the `len <
size_t(INT_MAX)` guard falls through to the `throw` regardless of
`throw_on_inv_chars`.  This falsifies the claim "for every input ...
strict=false never raises ConversionError". -/
theorem C6_counterexample :
    u8widen (List.replicate 2147483647 97) false =
      .error "utf8 to wide-string conversion failed." :=
  u8widen_replicate_INT_MAX false

/-! ## Claim C7 -/

/-- C7 (amended): for every valid UTF-8 byte sequence of fewer than
`INT_MAX` bytes, widening strictly and then narrowing strictly returns
the original byte sequence. -/
theorem C7_round_trip (s : List Nat) (h : ValidUtf8 s) (hlen : s.length < INT_MAX) :
    (u8widen s true).bind (fun w => u8narrow w true) = .ok s := by
  obtain ⟨cps, hscal, rfl⟩ := h
  rw [u8widen_encode cps hscal hlen]
  have hl16 : (encodeUtf16 cps).length < INT_MAX :=
    Nat.lt_of_le_of_lt (encodeUtf16_length_le cps) hlen
  have := u8narrow_encode16 cps hscal hl16
  simpa [Except.bind] using this

/-- Witness for C7: the round trip on the 2-byte sequence C3 A9 ("é"). -/
theorem C7_round_trip_witness :
    (u8widen [195, 169] true).bind (fun w => u8narrow w true) = .ok [195, 169] :=
  C7_round_trip [195, 169] ⟨[233], by decide, rfl⟩ (by norm_num [INT_MAX])


/-- C7 counterexample: a valid UTF-8 sequence of length `INT_MAX` (all
ASCII) fails the round trip because `u8widen` throws on it, so the claim
does not hold for *every* valid sequence. -/
theorem C7_counterexample :
    ValidUtf8 (List.replicate 2147483647 97) ∧
    (u8widen (List.replicate 2147483647 97) true).bind (fun w => u8narrow w true) ≠
      .ok (List.replicate 2147483647 97) := by
  constructor
  · refine ⟨List.replicate 2147483647 97, ?_, (encodeUtf8_replicate97 _).symm⟩
    intro c hc
    rw [(List.mem_replicate.mp hc).2]
    decide
  · rw [u8widen_replicate_INT_MAX true]
    intro hcontra
    have hb : Except.bind
        (.error "utf8 to wide-string conversion failed." : Except String (List Nat))
        (fun w => u8narrow w true) =
        .error "utf8 to wide-string conversion failed." := rfl
    rw [hb] at hcontra
    cases hcontra

/-! ## Claim C8 -/

theorem utf16Decode_cons_ne_nil (u : Nat) (l cps : List Nat)
    (h : utf16Decode (u :: l) = some cps) : cps ≠ [] := by
  unfold utf16Decode at h
  simp only [List.length_cons] at h
  rw [utf16DecodeAux] at h
  cases hs : utf16Step (u :: l) with
  | none => rw [hs] at h; cases h
  | some cr =>
    obtain ⟨c, r⟩ := cr
    rw [hs] at h
    dsimp only at h
    cases hr : utf16DecodeAux l.length r with
    | none => rw [hr] at h; cases h
    | some cs =>
      rw [hr] at h
      simp only [Option.map_some', Option.some.injEq] at h
      rw [← h]
      simp

theorem encodeUtf8_ne_nil_of_ne_nil (cps : List Nat) (h : cps ≠ []) :
    encodeUtf8 cps ≠ [] := fun hc => h (encodeUtf8_eq_nil_of_eq cps hc)

theorem enc16_units_ne_zero (c : Nat) (h : isScalar c = true) (hc : c ≠ 0) :
    ∀ u ∈ enc16 c, (u != 0) = true := by
  intro u hu
  by_cases h1 : c < 65536
  · have he : enc16 c = [c] := by simp [enc16, h1]
    rw [he] at hu
    simp only [List.mem_singleton] at hu
    subst hu
    simp only [bne_iff_ne, ne_eq]
    exact hc
  · have he : enc16 c = [55296 + (c - 65536) / 1024, 56320 + (c - 65536) % 1024] := by
      simp [enc16, h1]
    rw [he] at hu
    simp only [List.mem_cons, List.not_mem_nil, or_false] at hu
    rcases hu with h2 | h2
    · rw [h2]; simp only [bne_iff_ne, ne_eq]
      omega
    · rw [h2]; simp only [bne_iff_ne, ne_eq]
      omega

theorem encodeUtf16_takeWhile_nul (cps : List Nat)
    (h : ∀ c ∈ cps, isScalar c = true) :
    (encodeUtf16 cps).takeWhile (fun u => u != 0) =
      encodeUtf16 (cps.takeWhile (fun c => c != 0)) := by
  induction cps with
  | nil => rfl
  | cons c cs ih =>
    have hc := h c (by simp)
    by_cases h0 : c = 0
    · subst h0
      have he : enc16 0 = [0] := rfl
      rw [encodeUtf16_cons, he, List.singleton_append,
        List.takeWhile_cons_of_neg (by decide),
        List.takeWhile_cons_of_neg (by decide)]
      rfl
    · rw [encodeUtf16_cons,
        takeWhile_append_all _ _ _ (enc16_units_ne_zero c hc h0),
        ih (fun b hb => h b (by simp [hb])),
        List.takeWhile_cons_of_pos (by simp only [bne_iff_ne, ne_eq]; exact h0),
        encodeUtf16_cons]

/-- C8: when the first `ReadConsoleW` batch (at most 126 units) is
non-empty and ends on a high surrogate, `underflow` issues exactly one
additional single-unit read, so the converted batch is exactly the first
127 units of the console stream; and whenever that completed batch is
valid UTF-16 — the encoding of code points `cps` — the NUL-terminated
conversion succeeds and the UTF-8 handed to the caller is exactly the
encoding of the code points preceding the first U+0000 of `cps` (eof when
there are none): it contains no replacement marker caused by the
surrogate pair split across the batch boundary. -/
theorem C8_surrogate_completion (stream : List Nat)
    (h1 : stream.take 126 ≠ [])
    (h2 : IS_HIGH_SURROGATE ((stream.take 126).getLastD 0) = true) :
    underflowBatch (stream.take 126) (some ((stream.drop 126).take 1)) = stream.take 127 ∧
    (∀ cps, (∀ c ∈ cps, isScalar c = true) → stream.take 127 = encodeUtf16 cps →
      underflow (some (stream.take 126)) (some ((stream.drop 126).take 1)) =
        .ok (if cps.takeWhile (fun c => c != 0) = [] then none
             else some (encodeUtf8 (cps.takeWhile (fun c => c != 0))))) := by
  have htake : stream.take 127 = stream.take 126 ++ (stream.drop 126).take 1 := by
    have : (126 : Nat) + 1 = 127 := rfl
    rw [← this, List.take_add]
  have hbatch : underflowBatch (stream.take 126) (some ((stream.drop 126).take 1)) =
      stream.take 127 := by
    unfold underflowBatch
    rw [if_pos ⟨h1, h2⟩]
    cases he : (stream.drop 126).take 1 with
    | nil => rw [htake, he, List.append_nil]
    | cons u us =>
      cases us with
      | nil => rw [htake, he]
      | cons v vs =>
        exfalso
        have h2' := congrArg List.length he
        simp only [List.length_take, List.length_cons] at h2'
        omega
  refine ⟨hbatch, ?_⟩
  intro cps hscal henc
  have hscal' : ∀ c ∈ cps.takeWhile (fun c => c != 0), isScalar c = true :=
    fun b hb => hscal b (List.Sublist.subset (List.takeWhile_sublist _) hb)
  unfold underflow
  dsimp only
  rw [hbatch, henc, encodeUtf16_takeWhile_nul cps hscal]
  by_cases hc : cps.takeWhile (fun c => c != 0) = []
  · rw [hc, if_pos rfl]
    rfl
  · have hlen' : (encodeUtf16 (cps.takeWhile (fun c => c != 0))).length < INT_MAX := by
      have hle : (encodeUtf16 (cps.takeWhile (fun c => c != 0))).length ≤
          (stream.take 127).length := by
        rw [henc, ← encodeUtf16_takeWhile_nul cps hscal]
        exact (List.takeWhile_sublist _).length_le
      have h127 : (stream.take 127).length ≤ 127 := by
        rw [List.length_take]
        omega
      have hIM : (127 : Nat) < INT_MAX := by decide
      omega
    rw [u8narrow_encode16 _ hscal' hlen']
    dsimp only
    have hE : (encodeUtf8 (cps.takeWhile (fun c => c != 0))).isEmpty = false := by
      cases hx : encodeUtf8 (cps.takeWhile (fun c => c != 0)) with
      | nil => exact absurd hx (encodeUtf8_ne_nil_of_ne_nil _ hc)
      | cons a l => rfl
    rw [hE, if_neg hc]
    rfl

set_option maxRecDepth 8000 in
/-- Witness for C8: a batch of 125 ASCII units followed by the high half
of the surrogate pair for U+1D552; the 127th console unit is the low
half, no unit is NUL, and the exposed UTF-8 is the exact encoding of the
126 code points, ending in F0 9D 95 92. -/
theorem C8_surrogate_completion_witness :
    underflowBatch ((List.replicate 125 65 ++ [55349, 56658]).take 126)
        (some (((List.replicate 125 65 ++ [55349, 56658]).drop 126).take 1)) =
      (List.replicate 125 65 ++ [55349, 56658]).take 127 ∧
    underflow (some ((List.replicate 125 65 ++ [55349, 56658]).take 126))
        (some (((List.replicate 125 65 ++ [55349, 56658]).drop 126).take 1)) =
      .ok (some (encodeUtf8 (List.replicate 125 65 ++ [120146]))) := by
  have h := C8_surrogate_completion (List.replicate 125 65 ++ [55349, 56658])
    (by decide) (by decide)
  refine ⟨h.1, ?_⟩
  have h2 := h.2 (List.replicate 125 65 ++ [120146]) (by decide) (by decide)
  rw [h2, if_neg (by decide)]
  have h3 : (List.replicate 125 65 ++ [120146]).takeWhile (fun c => c != 0) =
      List.replicate 125 65 ++ [120146] := by decide
  rw [h3]

/-! ## Claim C10 -/

/-- C10: whenever `num_trailing_partial_bytes` reaches the call
`num_succeeding_bytes(s[s.size() - result - 1])` (that is, the
continuation scan stopped with `0 < result < s.size()`), the byte passed
is not a continuation byte, so the classifier's `assert(false)`
continuation branch is unreachable from this call site. -/
theorem C10_call_byte_not_continuation (s : List Nat)
    (h1 : trailing_cont_count s ≠ 0) (h2 : trailing_cont_count s < s.length) :
    is_utf8_continuation (ntpb_call_byte s) = false := by
  have hrev : (s.reverse.takeWhile is_utf8_continuation).length < s.reverse.length := by
    simpa [trailing_cont_count] using h2
  have hstop := takeWhile_stop is_utf8_continuation 0 s.reverse hrev
  have htcc : (s.reverse.takeWhile is_utf8_continuation).length = trailing_cont_count s := rfl
  rw [htcc] at hstop
  rw [getD_reverse s _ h2 0] at hstop
  exact hstop

/-- Witness for C10: the buffer C3 A9 reaches the call site and hands the
non-continuation byte 0xC3 to the classifier. -/
theorem C10_call_byte_not_continuation_witness :
    trailing_cont_count [195, 169] ≠ 0 ∧
    trailing_cont_count [195, 169] < 2 ∧
    is_utf8_continuation (ntpb_call_byte [195, 169]) = false := by
  refine ⟨by decide, by decide, ?_⟩
  exact C10_call_byte_not_continuation [195, 169] (by decide) (by decide)

end Libpu8
